import Mathlib

/-!
# Tweak: a minimal content-addressed version-control engine

A shallow embedding of `src/Tweak.mjs` (class `Tweak`): the repository
directory `.tweak` is an explicit state, every method is a function on that
state, and the platform services the methods call (SHA-1, `JSON.parse`,
`JSON.stringify`, `diffLines`, the clock, the working tree) are parameters.
-/

namespace Tweak

/-! ## JavaScript values obtained from JSON -/

/-- JSON documents as `JSON.parse` returns them. Numbers are kept as integers:
the program never computes with them, it only tests them for truthiness. -/
inductive Json where
  | null
  | bool (b : Bool)
  | num (n : Int)
  | str (s : String)
  | arr (xs : List Json)
  | obj (kvs : List (String × Json))

/-- The errors a method can reject with. -/
inductive JsError where
  /-- `fs.readFile` on a file that does not exist (ENOENT). -/
  | noEntry
  /-- `JSON.parse` on a text that is not JSON. -/
  | syntaxError
  /-- A property read on `null` or `undefined`, a call of something that is not
  a function, an iteration of something not iterable, or `path.join` on a
  value that is not a string. -/
  | typeError
  deriving DecidableEq, Repr

/-- JavaScript truthiness of a value read from JSON; `none` is `undefined`. -/
def truthy : Option Json → Bool
  | none => false
  | some .null => false
  | some (.bool b) => b
  | some (.num n) => n != 0
  | some (.str s) => s != ""
  | some (.arr _) => true
  | some (.obj _) => true

/-- The operator `===` on two values that come from two different
`JSON.parse` calls: primitives compare by value, and an array or an object is
never identical to one from another parse. -/
def strictEq : Option Json → Option Json → Bool
  | none, none => true
  | some .null, some .null => true
  | some (.bool a), some (.bool b) => a == b
  | some (.num a), some (.num b) => a == b
  | some (.str a), some (.str b) => a == b
  | _, _ => false

/-- Property read `v.key` for one of the keys the program uses (`files`,
`parent`, `timeStamp`, `message`, `path`, `hash`), none of which is inherited
from a prototype: `null` throws, an object yields its member or `undefined`,
every other value yields `undefined`. -/
def getProp (v : Json) (key : String) : Except JsError (Option Json) :=
  match v with
  | .null => .error .typeError
  | .obj kvs => .ok (kvs.lookup key)
  | _ => .ok none

/-- The values a `for ... of` loop visits: the elements of an array, the
characters of a string; any other value is not iterable. -/
def iterate : Option Json → Except JsError (List Json)
  | some (.arr xs) => .ok xs
  | some (.str s) => .ok (s.data.map (fun c => Json.str (String.singleton c)))
  | _ => .error .typeError

/-- The platform functions `JSON.stringify` and `JSON.parse`; `parse` yields
`none` where `JSON.parse` throws a `SyntaxError`. -/
structure JSON where
  stringify : Json → String
  parse : String → Option Json

/-! ## Content hashing -/

/-- One lowercase hexadecimal digit. -/
def hexDigit (d : Nat) : Char :=
  if d < 10 then Char.ofNat (48 + d) else Char.ofNat (87 + d)

/-- The `w` lowest hexadecimal digits of `v`, most significant first. -/
def hexDigits : Nat → Nat → List Char
  | 0, _ => []
  | w + 1, v => hexDigits w (v / 16) ++ [hexDigit (v % 16)]

/-- Source `hashObject`: the SHA-1 digest of the content, as 40 hexadecimal
digits. The digest function itself is the parameter `sha1`, read as a
160-bit number. -/
def hashObject (sha1 : String → Nat) (content : String) : String :=
  String.mk (hexDigits 40 (sha1 content % 2 ^ 160))

/-! ## Repository state -/

/-- The directory `.tweak`. `objects` is the write log of `.tweak/objects`,
newest first, each entry a file name and its content; `head` and `index` are
the contents of the files `HEAD` and `index`, `none` while the file does
not exist. A content is the string the program wrote, which reading the file
as UTF-8 gives back. -/
structure Repo where
  objects : List (String × String)
  head : Option String
  index : Option String
  deriving DecidableEq, Repr

/-- Reading `objects/<name>`: the newest content written under that name.
The name is looked up as it is, which is what `path.join(objectsPath, name)`
followed by a read does for a name that is one file name (`PlainName`), as
every hash is; a name with dots or separators can lead `path.join` to another
file and is outside this model. -/
def Repo.readObject (s : Repo) (name : String) : Option String :=
  s.objects.lookup name

/-- Writing `objects/<name>`, replacing what was there. -/
def Repo.writeObject (s : Repo) (name content : String) : Repo :=
  { s with objects := (name, content) :: s.objects }

/-- A directory in which `init` has not run. -/
def Repo.empty : Repo := ⟨[], none, none⟩

/-! ## Console output -/

/-- One piece of the diff library's result: a run of lines with its tag. -/
structure Change where
  added : Bool
  removed : Bool
  value : String
  deriving DecidableEq, Repr

/-- What the methods print, one constructor per `console.log` or
`process.stdout.write` of the source; a value interpolated into a template
is kept as the value, not as its text. -/
inductive Out where
  /-- `Tweak already initialized`. -/
  | alreadyInitialized
  /-- The hash `add` prints. -/
  | hash (fileHash : String)
  /-- `<file> added successfully`. -/
  | added (fileToBeAdded : String)
  /-- `Commit <hash> created successfully`. -/
  | committed (commitHash : String)
  /-- `Failed to read commit data`, with the caught error. -/
  | failedToRead
  /-- The line of dashes `log` prints before each commit. -/
  | separator
  /-- `Commit: <hash>`. -/
  | commitLine (currentCommitHash : Option Json)
  /-- `Date: <timeStamp>`. -/
  | dateLine (timeStamp : Option Json)
  /-- `Message: <message>`. -/
  | messageLine (message : Option Json)
  /-- `Commit not found`. -/
  | commitNotFound
  /-- `File : <path>`. -/
  | fileLine (path : Option Json)
  /-- The heading `Diff:`. -/
  | diffHeader
  /-- An added run, green, behind `++`. -/
  | diffAdded (value : String)
  /-- A removed run, red, behind `--`, followed by a line break. -/
  | diffRemoved (value : String)
  /-- An unchanged run, grey. -/
  | diffSame (value : String)
  /-- `This is a new file in this commit`. -/
  | newFile
  /-- `This is the first commit`. -/
  | firstCommit

/-- The result of a method that writes: the directory it leaves, what it
printed, and the error it rejected with, if any. -/
structure Outcome where
  repo : Repo
  out : List Out
  error : Option JsError

/-- The result of a method that only reads: what it printed and the error it
rejected with, if any. -/
structure Report where
  out : List Out
  error : Option JsError

/-! ## The methods of class `Tweak` -/

/-- Source `init`: both files are created with the flag `wx`, which fails on
an existing file; the first failure leaves the `try` block. -/
def init (J : JSON) (s : Repo) : Outcome :=
  match s.head with
  | some _ => ⟨s, [.alreadyInitialized], none⟩
  | none =>
    match s.index with
    | some _ => ⟨{ s with head := some "" }, [.alreadyInitialized], none⟩
    | none => ⟨{ s with head := some "", index := some (J.stringify (.arr [])) }, [], none⟩

/-- The object literal `{ path: filePath, hash: fileHash }`. -/
def stagingEntry (filePath fileHash : String) : Json :=
  .obj [("path", .str filePath), ("hash", .str fileHash)]

/-- Source `updateStagingArea`: parse the index file, push one entry, write
it back. -/
def updateStagingArea (J : JSON) (s : Repo) (filePath fileHash : String) :
    Repo × Option JsError :=
  match s.index with
  | none => (s, some .noEntry)
  | some text =>
    match J.parse text with
    | none => (s, some .syntaxError)
    | some (.arr index) =>
      ({ s with index := some (J.stringify (.arr (index ++ [stagingEntry filePath fileHash]))) },
        none)
    | some _ => (s, some .typeError)

/-- Source `add`. `fileData` is what `fs.readFile(fileToBeAdded)` yields in
the working tree, `none` when it fails. -/
def add (J : JSON) (sha1 : String → Nat) (s : Repo) (fileToBeAdded : String)
    (fileData : Option String) : Outcome :=
  match fileData with
  | none => ⟨s, [], some .noEntry⟩
  | some data =>
    let fileHash := hashObject sha1 data
    let s1 := s.writeObject fileHash data
    match updateStagingArea J s1 fileToBeAdded fileHash with
    | (s2, some e) => ⟨s2, [.hash fileHash], some e⟩
    | (s2, none) => ⟨s2, [.hash fileHash, .added fileToBeAdded], none⟩

/-- Source `getCurrentHead`: the content of `HEAD`, or `null` when it cannot
be read. -/
def getCurrentHead (s : Repo) : Json :=
  match s.head with
  | some h => .str h
  | none => .null

/-- The object literal `commitData` of `commit`. -/
def commitRecord (timeStamp message : String) (files parent : Json) : Json :=
  .obj [("timeStamp", .str timeStamp), ("message", .str message), ("files", files),
    ("parent", parent)]

/-- Source `commit`. `now` is what `new Date().toISOString()` yields. -/
def commit (J : JSON) (sha1 : String → Nat) (s : Repo) (now message : String) : Outcome :=
  match s.index with
  | none => ⟨s, [], some .noEntry⟩
  | some text =>
    match J.parse text with
    | none => ⟨s, [], some .syntaxError⟩
    | some index =>
      let commitData := commitRecord now message index (getCurrentHead s)
      let commitHash := hashObject sha1 (J.stringify commitData)
      ⟨{ objects := (commitHash, J.stringify commitData) :: s.objects,
         head := some commitHash,
         index := some (J.stringify (.arr [])) },
        [.committed commitHash], none⟩

/-- Source `getCommitData`: `path.join` rejects a name that is not a string
before the `try` block is entered; inside it a failed read and a failed parse
are both caught, reported and turned into `null`. -/
def getCommitData (J : JSON) (s : Repo) (currentCommitHash : Option Json) :
    Except JsError (List Out × Json) :=
  match currentCommitHash with
  | some (.str name) =>
    match s.readObject name with
    | none => .ok ([.failedToRead], .null)
    | some text =>
      match J.parse text with
      | none => .ok ([.failedToRead], .null)
      | some commitData => .ok ([], commitData)
  | _ => .error .typeError

/-- Source `getFileContent`. -/
def getFileContent (s : Repo) (fileHash : Option Json) : Except JsError String :=
  match fileHash with
  | some (.str name) =>
    match s.readObject name with
    | none => .error .noEntry
    | some content => .ok content
  | _ => .error .typeError

/-- The call `files.find((file) => file.path === filePath)` on an array. -/
def findByPath (filePath : Option Json) : List Json → Except JsError (Option Json)
  | [] => .ok none
  | file :: rest =>
    match getProp file "path" with
    | .error e => .error e
    | .ok p => if strictEq p filePath then .ok (some file) else findByPath filePath rest

/-- Source `getParentFileContent`; `none` is the `undefined` it returns when
no entry of the parent has the path. -/
def getParentFileContent (s : Repo) (parentCommitData : Json) (filePath : Option Json) :
    Except JsError (Option String) :=
  match getProp parentCommitData "files" with
  | .error e => .error e
  | .ok (some (.arr files)) =>
    match findByPath filePath files with
    | .error e => .error e
    | .ok none => .ok none
    | .ok (some parentFile) =>
      if truthy (some parentFile) then
        match getProp parentFile "hash" with
        | .error e => .error e
        | .ok h =>
          match getFileContent s h with
          | .error e => .error e
          | .ok content => .ok (some content)
      else .ok none
  | .ok _ => .error .typeError

/-- The body of `diff.forEach` in `showCommitDiff`. -/
def render (part : Change) : List Out :=
  if part.added then [.diffAdded part.value]
  else if part.removed then [.diffRemoved part.value]
  else [.diffSame part.value]

/-- One turn of the loop over `commitData.files` in `showCommitDiff`. -/
def showFile (J : JSON) (diffLines : String → String → List Change) (s : Repo)
    (commitData file : Json) : Report :=
  match getProp file "path" with
  | .error e => ⟨[], some e⟩
  | .ok path =>
    match getProp file "hash" with
    | .error e => ⟨[.fileLine path], some e⟩
    | .ok h =>
      match getFileContent s h with
      | .error e => ⟨[.fileLine path], some e⟩
      | .ok fileContent =>
        match getProp commitData "parent" with
        | .error e => ⟨[.fileLine path], some e⟩
        | .ok parent =>
          if truthy parent then
            match getCommitData J s parent with
            | .error e => ⟨[.fileLine path], some e⟩
            | .ok (o, parentCommitData) =>
              match getParentFileContent s parentCommitData path with
              | .error e => ⟨.fileLine path :: o, some e⟩
              | .ok (some parentFileContent) =>
                ⟨.fileLine path :: (o ++ .diffHeader ::
                  (diffLines parentFileContent fileContent).flatMap render), none⟩
              | .ok none => ⟨.fileLine path :: (o ++ [.newFile]), none⟩
          else ⟨[.fileLine path, .firstCommit], none⟩

/-- The loop over `commitData.files` in `showCommitDiff`: it stops at the
first turn that throws. -/
def showFiles (J : JSON) (diffLines : String → String → List Change) (s : Repo)
    (commitData : Json) : List Json → Report
  | [] => ⟨[], none⟩
  | file :: rest =>
    match showFile J diffLines s commitData file with
    | ⟨o, some e⟩ => ⟨o, some e⟩
    | ⟨o, none⟩ =>
      let r := showFiles J diffLines s commitData rest
      ⟨o ++ r.out, r.error⟩

/-- Source `showCommitDiff`. -/
def showCommitDiff (J : JSON) (diffLines : String → String → List Change) (s : Repo)
    (commitHash : String) : Report :=
  match getCommitData J s (some (.str commitHash)) with
  | .error e => ⟨[], some e⟩
  | .ok (o, commitData) =>
    if truthy (some commitData) then
      match getProp commitData "files" with
      | .error e => ⟨o, some e⟩
      | .ok files =>
        match iterate files with
        | .error e => ⟨o, some e⟩
        | .ok entries =>
          let r := showFiles J diffLines s commitData entries
          ⟨o ++ r.out, r.error⟩
    else ⟨o ++ [.commitNotFound], none⟩

/-- The `while` loop of `log`, entered with the value of `currentCommitHash`.
`fuel` bounds the number of times the loop condition is tested; `none` means
the loop was still running when the fuel ran out. -/
def logFrom (J : JSON) (s : Repo) : Nat → Option Json → Option Report
  | 0, _ => none
  | fuel + 1, currentCommitHash =>
    if truthy currentCommitHash then
      match getCommitData J s currentCommitHash with
      | .error e => some ⟨[], some e⟩
      | .ok (o, commitData) =>
        match getProp commitData "timeStamp" with
        | .error e => some ⟨o ++ [.separator, .commitLine currentCommitHash], some e⟩
        | .ok timeStamp =>
          match getProp commitData "message" with
          | .error e =>
            some ⟨o ++ [.separator, .commitLine currentCommitHash, .dateLine timeStamp], some e⟩
          | .ok message =>
            match getProp commitData "parent" with
            | .error e =>
              some ⟨o ++ [.separator, .commitLine currentCommitHash, .dateLine timeStamp,
                .messageLine message], some e⟩
            | .ok parent =>
              match logFrom J s fuel parent with
              | none => none
              | some r =>
                some ⟨o ++ [.separator, .commitLine currentCommitHash, .dateLine timeStamp,
                  .messageLine message] ++ r.out, r.error⟩
    else some ⟨[], none⟩

/-- Source `log`. -/
def log (J : JSON) (s : Repo) (fuel : Nat) : Option Report :=
  logFrom J s fuel (some (getCurrentHead s))

/-! ## Sequences of commands -/

/-- One command that changes the repository. -/
inductive Op where
  /-- `add <file>`, with what reading the file yields at that moment. -/
  | add (fileToBeAdded : String) (fileData : Option String)
  /-- `commit <message>`, with the time at that moment. -/
  | commit (now message : String)

/-- The method a command calls. Every command first constructs the object,
whose `init` changes nothing in a directory where HEAD exists; the commands
are run on initialised repositories, so a step is the method alone. -/
def step (J : JSON) (sha1 : String → Nat) (s : Repo) : Op → Outcome
  | .add fileToBeAdded fileData => add J sha1 s fileToBeAdded fileData
  | .commit now message => commit J sha1 s now message

/-- The commands run one after the other, a later one also after an earlier
one was rejected: the directory left at the end and everything printed. -/
def run (J : JSON) (sha1 : String → Nat) (s : Repo) (ops : List Op) : Repo × List Out :=
  ops.foldl (fun acc op => ((step J sha1 acc.1 op).repo, acc.2 ++ (step J sha1 acc.1 op).out))
    (s, [])

/-- A repository on which `init` has run and nothing else. -/
def fresh (J : JSON) : Repo := (init J Repo.empty).repo

/-! ## Files as bytes

A file of the working tree is a list of bytes; `add` reads it as UTF-8 text
and every object is written from a string, as the UTF-8 encoding of that
string. -/

/-- The UTF-8 bytes of one character. -/
def utf8EncodeChar (c : Char) : List Nat :=
  if c.toNat < 0x80 then [c.toNat]
  else if c.toNat < 0x800 then [0xc0 + c.toNat / 64, 0x80 + c.toNat % 64]
  else if c.toNat < 0x10000 then
    [0xe0 + c.toNat / 4096, 0x80 + c.toNat / 64 % 64, 0x80 + c.toNat % 64]
  else
    [0xf0 + c.toNat / 262144, 0x80 + c.toNat / 4096 % 64, 0x80 + c.toNat / 64 % 64,
      0x80 + c.toNat % 64]

/-- The bytes `fs.writeFile` writes for a string: its UTF-8 encoding. -/
def utf8Encode (text : String) : List Nat :=
  text.data.flatMap utf8EncodeChar

/-- The replacement character U+FFFD. -/
def replacement : Char := Char.ofNat 0xfffd

/-- Whether a byte continues a sequence, within the bounds its lead byte
sets for it. -/
def continues (lower upper b : Nat) : Bool :=
  decide (lower ≤ b) && decide (b ≤ upper)

/-- The decoding of bytes as UTF-8 that `fs.readFile` performs when given the
encoding `utf-8`: a well-formed sequence yields its character; a byte that
cannot start a sequence, and a sequence broken off by a byte that cannot
continue it or by the end of the file, yield one U+FFFD, and decoding goes
on at the byte that broke the sequence. A byte order mark is kept. -/
def utf8DecodeChars : List Nat → List Char
  | [] => []
  | b :: r =>
    if b < 0x80 then Char.ofNat b :: utf8DecodeChars r
    else if 0xc2 ≤ b ∧ b ≤ 0xdf then
      match r with
      | [] => [replacement]
      | b1 :: r1 =>
        if continues 0x80 0xbf b1 then
          Char.ofNat (b % 32 * 64 + b1 % 64) :: utf8DecodeChars r1
        else replacement :: utf8DecodeChars (b1 :: r1)
    else if 0xe0 ≤ b ∧ b ≤ 0xef then
      match r with
      | [] => [replacement]
      | b1 :: r1 =>
        if continues (if b = 0xe0 then 0xa0 else 0x80) (if b = 0xed then 0x9f else 0xbf) b1 then
          match r1 with
          | [] => [replacement]
          | b2 :: r2 =>
            if continues 0x80 0xbf b2 then
              Char.ofNat ((b % 16 * 64 + b1 % 64) * 64 + b2 % 64) :: utf8DecodeChars r2
            else replacement :: utf8DecodeChars (b2 :: r2)
        else replacement :: utf8DecodeChars (b1 :: r1)
    else if 0xf0 ≤ b ∧ b ≤ 0xf4 then
      match r with
      | [] => [replacement]
      | b1 :: r1 =>
        if continues (if b = 0xf0 then 0x90 else 0x80) (if b = 0xf4 then 0x8f else 0xbf) b1 then
          match r1 with
          | [] => [replacement]
          | b2 :: r2 =>
            if continues 0x80 0xbf b2 then
              match r2 with
              | [] => [replacement]
              | b3 :: r3 =>
                if continues 0x80 0xbf b3 then
                  Char.ofNat (((b % 8 * 64 + b1 % 64) * 64 + b2 % 64) * 64 + b3 % 64) ::
                    utf8DecodeChars r3
                else replacement :: utf8DecodeChars (b3 :: r3)
            else replacement :: utf8DecodeChars (b2 :: r2)
        else replacement :: utf8DecodeChars (b1 :: r1)
    else replacement :: utf8DecodeChars r

/-- The string `fs.readFile(file, "utf-8")` yields for the bytes of a file. -/
def utf8Decode (bytes : List Nat) : String :=
  String.mk (utf8DecodeChars bytes)

/-- The call `fs.readFile(fileToBeAdded, "utf-8")` of `add` on a file of the
working tree given by its bytes, `none` when the file cannot be read. -/
def readFile (file : Option (List Nat)) : Option String :=
  file.map utf8Decode

/-! ## A codec for compact JSON texts

An executable instance of the two platform functions, for the texts
`JSON.stringify` emits (no white space) with integer numbers. -/
namespace Compact

/-- The double quote. -/
def quote : Char := Char.ofNat 34
/-- The backslash. -/
def bslash : Char := Char.ofNat 92

/-- The text `JSON.stringify` writes for one character of a string. -/
def escapeChar (c : Char) : List Char :=
  if c = quote then [bslash, quote]
  else if c = bslash then [bslash, bslash]
  else if c = Char.ofNat 8 then [bslash, 'b']
  else if c = Char.ofNat 12 then [bslash, 'f']
  else if c = Char.ofNat 10 then [bslash, 'n']
  else if c = Char.ofNat 13 then [bslash, 'r']
  else if c = Char.ofNat 9 then [bslash, 't']
  else if c.toNat < 32 then
    [bslash, 'u', '0', '0', hexDigit (c.toNat / 16), hexDigit (c.toNat % 16)]
  else [c]

/-- The double quote. -/
def quoted (s : String) : List Char :=
  quote :: (s.data.flatMap escapeChar ++ [quote])

/-- One decimal digit. -/
def digitChar (d : Nat) : Char := Char.ofNat (48 + d)

/-- A natural number in decimal. -/
def natChars (n : Nat) : List Char :=
  if n = 0 then ['0'] else (Nat.digits 10 n).reverse.map digitChar

/-- An integer in decimal. -/
def intChars : Int → List Char
  | .ofNat n => natChars n
  | .negSucc n => '-' :: natChars (n + 1)

mutual
/-- The compact text of a JSON document, without any white space. -/
def encode : Json → List Char
  | .null => ['n', 'u', 'l', 'l']
  | .bool true => ['t', 'r', 'u', 'e']
  | .bool false => ['f', 'a', 'l', 's', 'e']
  | .num n => intChars n
  | .str s => quoted s
  | .arr [] => ['[', ']']
  | .arr (x :: xs) => '[' :: (encode x ++ (encodeTail xs ++ [']']))
  | .obj [] => ['{', '}']
  | .obj ((k, v) :: kvs) => '{' :: (quoted k ++ ':' :: (encode v ++ (encodeMembers kvs ++ ['}'])))
/-- The elements of an array after the first, each behind a comma. -/
def encodeTail : List Json → List Char
  | [] => []
  | x :: xs => ',' :: (encode x ++ encodeTail xs)
/-- The members of an object after the first, each behind a comma. -/
def encodeMembers : List (String × Json) → List Char
  | [] => []
  | (k, v) :: kvs => ',' :: (quoted k ++ ':' :: (encode v ++ encodeMembers kvs))
end

/-- The value of a hexadecimal digit. -/
def hexValue (c : Char) : Option Nat :=
  if 48 ≤ c.toNat ∧ c.toNat ≤ 57 then some (c.toNat - 48)
  else if 97 ≤ c.toNat ∧ c.toNat ≤ 102 then some (c.toNat - 87)
  else if 65 ≤ c.toNat ∧ c.toNat ≤ 70 then some (c.toNat - 55)
  else none

/-- The character of an escape `\\uXXXX`; surrogate code units are not read. -/
def hex4 (a b c d : Char) : Option Char :=
  match hexValue a, hexValue b, hexValue c, hexValue d with
  | some x, some y, some z, some w =>
    let n := ((x * 16 + y) * 16 + z) * 16 + w
    if n < 0xd800 ∨ 0xdfff < n then some (Char.ofNat n) else none
  | _, _, _, _ => none

/-- The character of a two-character escape. -/
def unescape (e : Char) : Option Char :=
  if e = quote then some quote
  else if e = bslash then some bslash
  else if e = '/' then some '/'
  else if e = 'b' then some (Char.ofNat 8)
  else if e = 'f' then some (Char.ofNat 12)
  else if e = 'n' then some (Char.ofNat 10)
  else if e = 'r' then some (Char.ofNat 13)
  else if e = 't' then some (Char.ofNat 9)
  else none

/-- Put one more character in front of the characters read so far. -/
def push (c : Char) (p : Option (List Char × List Char)) : Option (List Char × List Char) :=
  p.map (fun q => (c :: q.1, q.2))

/-- The characters of a string literal up to its closing quote, and what
follows it. -/
def parseChars : List Char → Option (List Char × List Char)
  | [] => none
  | c :: r =>
    if c = quote then some ([], r)
    else if c = bslash then
      match r with
      | [] => none
      | e :: r1 =>
        if e = 'u' then
          match r1 with
          | a :: b :: x :: d :: r2 =>
            match hex4 a b x d with
            | some ch => push ch (parseChars r2)
            | none => none
          | _ => none
        else
          match unescape e with
          | some ch => push ch (parseChars r1)
          | none => none
    else if c.toNat < 32 then none
    else push c (parseChars r)

/-- The number a run of decimal digits stands for. -/
def digitsValue (ds : List Char) : Nat :=
  ds.foldl (fun a c => 10 * a + (c.toNat - 48)) 0

/-- A run of digits without a superfluous leading zero. -/
def parseNat (cs : List Char) : Option (Nat × List Char) :=
  let ds := cs.takeWhile Char.isDigit
  if ds = [] then none
  else if ds.head? = some '0' ∧ ds ≠ ['0'] then none
  else some (digitsValue ds, cs.dropWhile Char.isDigit)

/-- Whether the input may follow a number: it is over, or goes on with a
comma or a closing bracket. -/
def endsNumber : List Char → Bool
  | [] => true
  | c :: _ => c = ',' || c = ']' || c = '}'

/-- An integer literal; fractions and exponents are not read. -/
def parseInt (cs : List Char) : Option (Json × List Char) :=
  match cs with
  | '-' :: r =>
    match parseNat r with
    | some (n, r1) => if endsNumber r1 then some (.num (-(n : Int)), r1) else none
    | none => none
  | _ =>
    match parseNat cs with
    | some (n, r1) => if endsNumber r1 then some (.num (n : Int), r1) else none
    | none => none

/-- A string, a literal name or a number at the head of the input. -/
def parseAtom (cs : List Char) : Option (Json × List Char) :=
  match cs with
  | [] => none
  | c :: r =>
    if c = quote then (parseChars r).map (fun p => (Json.str (String.mk p.1), p.2))
    else if c = 'n' then
      match r with
      | 'u' :: 'l' :: 'l' :: r1 => some (.null, r1)
      | _ => none
    else if c = 't' then
      match r with
      | 'r' :: 'u' :: 'e' :: r1 => some (.bool true, r1)
      | _ => none
    else if c = 'f' then
      match r with
      | 'a' :: 'l' :: 's' :: 'e' :: r1 => some (.bool false, r1)
      | _ => none
    else parseInt cs

mutual
/-- One JSON value at the head of the input; `fuel` bounds the nesting. -/
def parseValue : Nat → List Char → Option (Json × List Char)
  | 0, _ => none
  | _ + 1, [] => none
  | fuel + 1, c :: r =>
    if c = '[' then
      if r.head? = some ']' then some (.arr [], r.tail)
      else (parseValue fuel r).bind fun p =>
        (parseTail fuel p.2).map fun q => (Json.arr (p.1 :: q.1), q.2)
    else if c = '{' then
      if r.head? = some '}' then some (.obj [], r.tail)
      else (parseMember fuel r).bind fun p =>
        (parseMembers fuel p.2).map fun q => (Json.obj (p.1 :: q.1), q.2)
    else parseAtom (c :: r)
/-- One member `"key":value` of an object. -/
def parseMember : Nat → List Char → Option ((String × Json) × List Char)
  | 0, _ => none
  | _ + 1, [] => none
  | fuel + 1, c :: r =>
    if c = quote then
      (parseChars r).bind fun p =>
        if p.2.head? = some ':' then
          (parseValue fuel p.2.tail).map fun q => ((String.mk p.1, q.1), q.2)
        else none
    else none
/-- The elements of an array after the first, up to the closing bracket. -/
def parseTail : Nat → List Char → Option (List Json × List Char)
  | 0, _ => none
  | _ + 1, [] => none
  | fuel + 1, c :: r =>
    if c = ']' then some ([], r)
    else if c = ',' then
      (parseValue fuel r).bind fun p =>
        (parseTail fuel p.2).map fun q => (p.1 :: q.1, q.2)
    else none
/-- The members of an object after the first, up to the closing brace. -/
def parseMembers : Nat → List Char → Option (List (String × Json) × List Char)
  | 0, _ => none
  | _ + 1, [] => none
  | fuel + 1, c :: r =>
    if c = '}' then some ([], r)
    else if c = ',' then
      (parseMember fuel r).bind fun p =>
        (parseMembers fuel p.2).map fun q => (p.1 :: q.1, q.2)
    else none
end

/-- `JSON.stringify` on documents. -/
def stringify (j : Json) : String := String.mk (encode j)

/-- `JSON.parse` on compact texts: the whole text must be one document. -/
def parse (text : String) : Option Json :=
  match parseValue (text.data.length + 1) text.data with
  | some (j, []) => some j
  | _ => none

end Compact

/-- The codec of compact JSON texts as an instance of the platform functions. -/
def compactJSON : JSON := ⟨Compact.stringify, Compact.parse⟩

/-- A small stand-in for SHA-1 in closed examples: a polynomial checksum. -/
def sampleDigest (content : String) : Nat :=
  content.data.foldl (fun h c => 31 * h + c.toNat) 7

/-- A small stand-in for `diffLines` in closed examples: equal texts are one
unchanged run, different texts are the old one removed and the new one
added. -/
def sampleDiff (oldText newText : String) : List Change :=
  if oldText = newText then [⟨false, false, newText⟩]
  else [⟨false, true, oldText⟩, ⟨true, false, newText⟩]

/-! ## Vocabulary of the statements -/

/-- A name that `path.join` leaves as one file name below `.tweak/objects`:
not empty, letters and digits only. Every hash `hashObject` yields is one. -/
def PlainName (name : String) : Prop :=
  name ≠ "" ∧ ∀ c ∈ name.data, c.isAlphanum = true

/-- The array of the entries `add` stages for a list of paths and hashes. -/
def entries (files : List (String × String)) : Json :=
  .arr (files.map fun e => stagingEntry e.1 e.2)

/-- The stored content under a name, empty when there is none. -/
def contentOf (s : Repo) (name : String) : String :=
  (s.readObject name).getD ""

/-- Spec 4.4, `diffAgainstParent`, for one file entry `(path, hash)` of a
commit: without a parent the file is reported as new, no diff computed; with
a parent the path is looked up in the parent's file list, first match; if
found, the edit script between the parent content and the current content is
reported; if not, the file is reported as new in this commit.
`parentFiles` is `none` for a commit without parent. -/
def reportAgainstParent (diffLines : String → String → List Change) (content : String → String)
    (parentFiles : Option (List (String × String))) (entry : String × String) : List Out :=
  match parentFiles with
  | none => [.fileLine (some (.str entry.1)), .firstCommit]
  | some files =>
    match files.find? (fun e => e.1 == entry.1) with
    | none => [.fileLine (some (.str entry.1)), .newFile]
    | some old =>
      .fileLine (some (.str entry.1)) :: .diffHeader ::
        (diffLines (content old.2) (content entry.2)).flatMap render

/-- How the `parent` member of a stored commit relates to the file list of its
parent: for `none` the member is falsy, the commit has no parent; for
`some parentFiles` the member is the name of a stored commit record with
these files, and for each of `paths` the content of the first parent entry
with that path is stored. -/
def ParentIs (J : JSON) (s : Repo) (parent : Json) (paths : List String) :
    Option (List (String × String)) → Prop
  | none => truthy (some parent) = false
  | some parentFiles =>
    ∃ name text now message grandparent,
      parent = .str name ∧ name ≠ "" ∧ s.readObject name = some text ∧
      J.parse text = some (commitRecord now message (entries parentFiles) grandparent) ∧
      ∀ p ∈ paths, ∀ old, parentFiles.find? (fun e => e.1 == p) = some old →
        ∃ content, s.readObject old.2 = some content

/-- The hashes `commit` printed, in the order of the calls. -/
def commitHashes (out : List Out) : List String :=
  out.filterMap fun o => match o with
    | .committed h => some h
    | _ => none

/-- The time and the message of the `commit` commands of a sequence, in the
order of the calls. -/
def commitArgs (ops : List Op) : List (String × String) :=
  ops.filterMap fun op => match op with
    | .commit now message => some (now, message)
    | _ => none

/-- What `log` prints for commits given by hash, time and message. -/
def logLines (commits : List (String × String × String)) : List Out :=
  commits.flatMap fun c =>
    [.separator, .commitLine (some (.str c.1)), .dateLine (some (.str c.2.1)),
      .messageLine (some (.str c.2.2))]

/-- Distinct stored contents have distinct hashes: no name was written with
two different contents. -/
def NoCollision (objects : List (String × String)) : Prop :=
  ∀ e1 ∈ objects, ∀ e2 ∈ objects, e1.1 = e2.1 → e1.2 = e2.2

/-- The head a chain of commits, newest first, leaves in HEAD. -/
def headOf : List (String × String × String) → String
  | [] => ""
  | c :: _ => c.1

/-- Every commit of the chain, newest first, was written to the store as a
record whose parent is the commit behind it, the oldest with the empty
string, and whose files were all written to the store. -/
def Links (J : JSON) (s : Repo) : List (String × String × String) → Prop
  | [] => True
  | c :: rest =>
    c.1 ≠ "" ∧
    (∃ files : List (String × String),
      (c.1, J.stringify (commitRecord c.2.1 c.2.2 (entries files) (.str (headOf rest))))
        ∈ s.objects ∧
      ∀ e ∈ files, ∃ content, (e.2, content) ∈ s.objects) ∧
    Links J s rest

/-- The state of a repository that has made the commits of `chain` and has
staged `staged` since. -/
def Inv (J : JSON) (s : Repo) (chain : List (String × String × String))
    (staged : List (String × String)) : Prop :=
  s.head = some (headOf chain) ∧
  s.index = some (J.stringify (entries staged)) ∧
  (∀ e ∈ staged, ∃ content, (e.2, content) ∈ s.objects) ∧
  Links J s chain

/-- The example scenario of the spec as a sequence of commands: `a.txt` is
added and committed, changed, added and committed again. -/
def scenario : List Op :=
  [.add "a.txt" (some "hello\n"), .commit "2024-01-01T00:00:00.000Z" "first",
    .add "a.txt" (some "hello\nworld\n"), .commit "2024-01-02T00:00:00.000Z" "second"]

/-! ## The compact codec reads back what it writes -/

namespace Compact

theorem hex4_control : ∀ n, n < 32 →
    hex4 '0' '0' (hexDigit (n / 16)) (hexDigit (n % 16)) = some (Char.ofNat n) := by
  decide

theorem push_some (c : Char) (s r : List Char) : push c (some (s, r)) = some (c :: s, r) := rfl

theorem parseChars_bslash (e ch : Char) (tl : List Char) (hu : e ≠ 'u')
    (h : unescape e = some ch) : parseChars (bslash :: e :: tl) = push ch (parseChars tl) := by
  have hb : bslash ≠ quote := by decide
  rw [parseChars.eq_def]
  simp only [hb, if_false, if_true, hu, h]

theorem parseChars_escapeChar (c : Char) (tl : List Char) :
    parseChars (escapeChar c ++ tl) = push c (parseChars tl) := by
  unfold escapeChar
  split_ifs with h1 h2 h3 h4 h5 h6 h7 h8
  · subst h1; exact parseChars_bslash _ _ _ (by decide) (by decide)
  · subst h2; exact parseChars_bslash _ _ _ (by decide) (by decide)
  · subst h3; exact parseChars_bslash _ _ _ (by decide) (by decide)
  · subst h4; exact parseChars_bslash _ _ _ (by decide) (by decide)
  · subst h5; exact parseChars_bslash _ _ _ (by decide) (by decide)
  · subst h6; exact parseChars_bslash _ _ _ (by decide) (by decide)
  · subst h7; exact parseChars_bslash _ _ _ (by decide) (by decide)
  · have hc : hex4 '0' '0' (hexDigit (c.toNat / 16)) (hexDigit (c.toNat % 16)) = some c := by
      rw [hex4_control _ h8, Char.ofNat_toNat]
    have hb : bslash ≠ quote := by decide
    simp only [List.cons_append, List.nil_append]
    rw [parseChars.eq_def]
    simp only [hb, if_false, if_true, hc]
  · simp only [List.cons_append, List.nil_append]
    rw [parseChars.eq_def]
    simp only [h1, h2, h8, if_false]

theorem parseChars_quoted (s rest : List Char) :
    parseChars (s.flatMap escapeChar ++ quote :: rest) = some (s, rest) := by
  induction s with
  | nil => rw [List.flatMap_nil, List.nil_append, parseChars.eq_def]; simp only [if_true]
  | cons c s ih =>
    rw [List.flatMap_cons, List.append_assoc, parseChars_escapeChar, ih, push_some]


theorem digitChar_isDigit : ∀ d, d < 10 → (digitChar d).isDigit = true := by decide

theorem digitChar_toNat : ∀ d, d < 10 → (digitChar d).toNat - 48 = d := by decide

theorem digitChar_ne_zero : ∀ d, d < 10 → d ≠ 0 → digitChar d ≠ '0' := by decide

theorem endsNumber_takeWhile (rest : List Char) (h : endsNumber rest = true) :
    rest.takeWhile Char.isDigit = [] ∧ rest.dropWhile Char.isDigit = rest := by
  cases rest with
  | nil => simp
  | cons c r =>
    have hc : c.isDigit = false := by
      simp only [endsNumber, Bool.or_eq_true, decide_eq_true_eq] at h
      rcases h with (h | h) | h <;> subst h <;> decide
    simp [List.takeWhile, List.dropWhile, hc]

theorem span_digits (ds rest : List Char) (hd : ∀ c ∈ ds, c.isDigit = true)
    (h : endsNumber rest = true) :
    (ds ++ rest).takeWhile Char.isDigit = ds ∧ (ds ++ rest).dropWhile Char.isDigit = rest := by
  obtain ⟨h1, h2⟩ := endsNumber_takeWhile rest h
  constructor
  · rw [List.takeWhile_append_of_pos hd, h1, List.append_nil]
  · rw [List.dropWhile_append_of_pos hd, h2]

theorem natChars_isDigit (n : Nat) : ∀ c ∈ natChars n, c.isDigit = true := by
  intro c hc
  unfold natChars at hc
  split_ifs at hc with h0
  · simp at hc; subst hc; decide
  · simp only [List.mem_map, List.mem_reverse] at hc
    obtain ⟨d, hd, rfl⟩ := hc
    exact digitChar_isDigit d (Nat.digits_lt_base (by norm_num) hd)

theorem natChars_ne_nil (n : Nat) : natChars n ≠ [] := by
  unfold natChars
  split_ifs with h0
  · simp
  · simp [Nat.digits_ne_nil_iff_ne_zero, h0]

theorem digitsValue_map (L : List Nat) (hL : ∀ d ∈ L, d < 10) :
    digitsValue (L.reverse.map digitChar) = Nat.ofDigits 10 L := by
  unfold digitsValue
  rw [List.foldl_map, List.foldl_reverse]
  induction L with
  | nil => rfl
  | cons d L ih =>
    rw [List.foldr_cons, ih (fun x hx => hL x (List.mem_cons_of_mem _ hx)), Nat.ofDigits_cons,
      digitChar_toNat d (hL d (List.mem_cons_self _ _))]
    ring

theorem digitsValue_natChars (n : Nat) : digitsValue (natChars n) = n := by
  unfold natChars
  split_ifs with h0
  · subst h0; rfl
  · rw [digitsValue_map _ (fun d hd => Nat.digits_lt_base (by norm_num) hd), Nat.ofDigits_digits]

theorem natChars_head (n : Nat) : ¬ ((natChars n).head? = some '0' ∧ natChars n ≠ ['0']) := by
  unfold natChars
  split_ifs with h0
  · simp
  · rintro ⟨h, -⟩
    have hne : Nat.digits 10 n ≠ [] := Nat.digits_ne_nil_iff_ne_zero.mpr h0
    rw [List.head?_map, List.head?_reverse, List.getLast?_eq_getLast _ hne] at h
    simp only [Option.map_some', Option.some.injEq] at h
    exact digitChar_ne_zero _ (Nat.digits_lt_base (by norm_num) (List.getLast_mem hne))
      (Nat.getLast_digit_ne_zero 10 h0) h

theorem parseNat_natChars (n : Nat) (rest : List Char) (h : endsNumber rest = true) :
    parseNat (natChars n ++ rest) = some (n, rest) := by
  obtain ⟨h1, h2⟩ := span_digits (natChars n) rest (natChars_isDigit n) h
  unfold parseNat
  simp only [h1, h2, natChars_ne_nil, natChars_head, if_false, digitsValue_natChars]

theorem natChars_cons (n : Nat) : ∃ c r, natChars n = c :: r ∧ c.isDigit = true := by
  have h := natChars_ne_nil n
  have hd := natChars_isDigit n
  cases hn : natChars n with
  | nil => exact absurd hn h
  | cons c r => exact ⟨c, r, rfl, hd c (by rw [hn]; exact List.mem_cons_self _ _)⟩

theorem parseInt_intChars (n : Int) (rest : List Char) (h : endsNumber rest = true) :
    parseInt (intChars n ++ rest) = some (.num n, rest) := by
  cases n with
  | ofNat k =>
    obtain ⟨c, r, hc, hdig⟩ := natChars_cons k
    have hm : c ≠ '-' := by rintro rfl; simp at hdig
    have hp := parseNat_natChars k rest h
    simp only [intChars]
    rw [hc] at hp ⊢
    rw [List.cons_append] at hp ⊢
    unfold parseInt
    split
    · rename_i heq; simp only [List.cons.injEq] at heq; exact absurd heq.1 hm
    · rw [hp]; simp [h]
  | negSucc k =>
    have hp := parseNat_natChars (k + 1) rest h
    simp only [intChars, List.cons_append]
    unfold parseInt
    simp only [hp, h, if_true]
    congr 2


theorem quoted_length (s : String) : 2 ≤ (quoted s).length := by
  simp [quoted]

theorem encode_ne_nil : ∀ j : Json, 1 ≤ (encode j).length
  | .null => by simp [encode]
  | .bool true => by simp [encode]
  | .bool false => by simp [encode]
  | .num n => by
    cases n <;> simp only [encode, intChars]
    · have := natChars_ne_nil ‹Nat›
      exact List.length_pos.mpr this
    · simp
  | .str s => by simp only [encode]; have := quoted_length s; omega
  | .arr [] => by simp [encode]
  | .arr (x :: xs) => by simp [encode]
  | .obj [] => by simp [encode]
  | .obj ((k, v) :: kvs) => by simp [encode]

theorem endsNumber_tail (xs : List Json) (rest : List Char) :
    endsNumber (encodeTail xs ++ ']' :: rest) = true := by
  cases xs <;> simp [encodeTail, endsNumber]

theorem endsNumber_members (kvs : List (String × Json)) (rest : List Char) :
    endsNumber (encodeMembers kvs ++ '}' :: rest) = true := by
  rcases kvs with _ | ⟨⟨k, v⟩, kvs⟩ <;> simp [encodeMembers, endsNumber]


theorem encode_head (j : Json) :
    ∃ c r, encode j = c :: r ∧ c ≠ ']' ∧ c ≠ '}' ∧
      (c = '[' ∨ c = '{' ∨ c = quote ∨ c = 'n' ∨ c = 't' ∨ c = 'f' ∨ c = '-' ∨ c.isDigit = true) := by
  have hq : quote ≠ ']' ∧ quote ≠ '}' := by decide
  match j with
  | .null => exact ⟨_, _, rfl, by decide, by decide, by simp⟩
  | .bool true => exact ⟨_, _, rfl, by decide, by decide, by simp⟩
  | .bool false => exact ⟨_, _, rfl, by decide, by decide, by simp⟩
  | .num (.ofNat k) =>
    obtain ⟨c, r, h1, h2⟩ := natChars_cons k
    refine ⟨c, r, h1, ?_, ?_, by simp [h2]⟩ <;> rintro rfl <;> simp at h2
  | .num (.negSucc k) => exact ⟨_, _, rfl, by decide, by decide, by simp⟩
  | .str s => exact ⟨_, _, rfl, hq.1, hq.2, by simp⟩
  | .arr [] => exact ⟨_, _, rfl, by decide, by decide, by simp⟩
  | .arr (x :: xs) => exact ⟨_, _, rfl, by decide, by decide, by simp⟩
  | .obj [] => exact ⟨_, _, rfl, by decide, by decide, by simp⟩
  | .obj ((k, v) :: kvs) => exact ⟨_, _, rfl, by decide, by decide, by simp⟩

theorem parseAtom_num (n : Int) (rest : List Char) (he : endsNumber rest = true) :
    parseAtom (intChars n ++ rest) = some (.num n, rest) := by
  have hp := parseInt_intChars n rest he
  obtain ⟨c, r, h1, -, -, h2⟩ := encode_head (.num n)
  simp only [encode] at h1
  rw [h1, List.cons_append] at hp ⊢
  have hd : c = '-' ∨ c.isDigit = true := by
    cases n with
    | ofNat k =>
      obtain ⟨c2, r2, h3, h4⟩ := natChars_cons k
      simp only [intChars] at h1
      rw [h3] at h1
      simp only [List.cons.injEq] at h1
      exact Or.inr (h1.1 ▸ h4)
    | negSucc k =>
      simp only [intChars, List.cons.injEq] at h1
      exact Or.inl h1.1.symm
  have n1 : c ≠ 'n' := by rintro rfl; rcases hd with h | h <;> simp at h
  have n2 : c ≠ 't' := by rintro rfl; rcases hd with h | h <;> simp at h
  have n3 : c ≠ 'f' := by rintro rfl; rcases hd with h | h <;> simp at h
  have n4 : c ≠ quote := by rintro rfl; rcases hd with h | h <;> revert h <;> decide
  unfold parseAtom
  simp only [n1, n2, n3, n4, if_false, hp]

theorem parseAtom_str (s : String) (rest : List Char) :
    parseAtom (quoted s ++ rest) = some (.str s, rest) := by
  simp only [quoted, List.cons_append, List.append_assoc, List.nil_append, parseAtom,
    if_true, parseChars_quoted, Option.map_some']


theorem succ_of_pos {fuel : Nat} (h : 1 ≤ fuel) : ∃ f, fuel = f + 1 := ⟨fuel - 1, by omega⟩

mutual
theorem parseValue_encode : ∀ (j : Json) (rest : List Char) (fuel : Nat),
    endsNumber rest = true → (encode j).length ≤ fuel →
    parseValue fuel (encode j ++ rest) = some (j, rest)
  | .null, rest, fuel, _, hf => by
    obtain ⟨f, rfl⟩ := succ_of_pos (le_trans (encode_ne_nil _) hf)
    simp [encode, parseValue, parseAtom, quote]
  | .bool true, rest, fuel, _, hf => by
    obtain ⟨f, rfl⟩ := succ_of_pos (le_trans (encode_ne_nil _) hf)
    simp [encode, parseValue, parseAtom, quote]
  | .bool false, rest, fuel, _, hf => by
    obtain ⟨f, rfl⟩ := succ_of_pos (le_trans (encode_ne_nil _) hf)
    simp [encode, parseValue, parseAtom, quote]
  | .num n, rest, fuel, he, hf => by
    obtain ⟨f, rfl⟩ := succ_of_pos (le_trans (encode_ne_nil _) hf)
    have hp := parseAtom_num n rest he
    obtain ⟨c, r, h1, -, -, h2⟩ := encode_head (.num n)
    have hb : c ≠ '[' ∧ c ≠ '{' := by
      have h3 : c = '-' ∨ c.isDigit = true := by
        cases n with
        | ofNat k =>
          obtain ⟨c2, r2, h3, h4⟩ := natChars_cons k
          simp only [encode, intChars] at h1
          rw [h3] at h1
          simp only [List.cons.injEq] at h1
          exact Or.inr (h1.1 ▸ h4)
        | negSucc k =>
          simp only [encode, intChars, List.cons.injEq] at h1
          exact Or.inl h1.1.symm
      constructor <;> rintro rfl <;> rcases h3 with h | h <;> simp at h
    simp only [encode] at h1 ⊢
    rw [h1, List.cons_append] at hp ⊢
    simp only [parseValue, hb.1, hb.2, if_false, hp]
  | .str s, rest, fuel, _, hf => by
    obtain ⟨f, rfl⟩ := succ_of_pos (le_trans (encode_ne_nil _) hf)
    have hp := parseAtom_str s rest
    have hq : quote ≠ '[' ∧ quote ≠ '{' := by decide
    simp only [encode]
    simp only [quoted, List.cons_append] at hp ⊢
    simp only [parseValue, hq.1, hq.2, if_false, hp]
  | .arr [], rest, fuel, _, hf => by
    obtain ⟨f, rfl⟩ := succ_of_pos (le_trans (encode_ne_nil _) hf)
    simp [encode, parseValue]
  | .arr (x :: xs), rest, fuel, _, hf => by
    obtain ⟨f, rfl⟩ := succ_of_pos (le_trans (encode_ne_nil _) hf)
    simp only [encode, List.length_cons, List.length_append, List.length_nil] at hf
    have hx := parseValue_encode x (encodeTail xs ++ ']' :: rest) f (endsNumber_tail xs rest)
      (by omega)
    have ht := parseTail_encode xs rest f (by omega)
    obtain ⟨c, r, hc, hc1, -, -⟩ := encode_head x
    have hh : (encode x ++ (encodeTail xs ++ ']' :: rest)).head? ≠ some ']' := by
      rw [hc]; simpa using hc1
    have e : encode (.arr (x :: xs)) ++ rest = '[' :: (encode x ++ (encodeTail xs ++ ']' :: rest)) := by
      simp [encode]
    rw [e, parseValue]
    simp only [if_true, hh, if_false, hx, Option.some_bind, ht, Option.map_some']
  | .obj [], rest, fuel, _, hf => by
    obtain ⟨f, rfl⟩ := succ_of_pos (le_trans (encode_ne_nil _) hf)
    simp [encode, parseValue]
  | .obj ((k, v) :: kvs), rest, fuel, _, hf => by
    obtain ⟨f, rfl⟩ := succ_of_pos (le_trans (encode_ne_nil _) hf)
    simp only [encode, List.length_cons, List.length_append, List.length_nil] at hf
    have hm := parseMember_encode k v (encodeMembers kvs ++ '}' :: rest) f
      (endsNumber_members kvs rest) (by simp only [List.length_append, List.length_cons]; omega)
    have ht := parseMembers_encode kvs rest f (by omega)
    have hq : quote ≠ '}' := by decide
    have hh : (quoted k ++ ':' :: (encode v ++ (encodeMembers kvs ++ '}' :: rest))).head?
        ≠ some '}' := by
      simpa [quoted] using hq
    have hb : ('{' : Char) ≠ '[' := by decide
    have e : encode (.obj ((k, v) :: kvs)) ++ rest =
        '{' :: (quoted k ++ ':' :: (encode v ++ (encodeMembers kvs ++ '}' :: rest))) := by
      simp [encode]
    rw [e, parseValue]
    simp only [if_true, hb, hh, if_false, hm, Option.some_bind, ht, Option.map_some']
theorem parseMember_encode : ∀ (k : String) (v : Json) (rest : List Char) (fuel : Nat),
    endsNumber rest = true → (quoted k ++ ':' :: encode v).length ≤ fuel →
    parseMember fuel (quoted k ++ ':' :: (encode v ++ rest)) = some ((k, v), rest)
  | k, v, rest, fuel, he, hf => by
    obtain ⟨f, rfl⟩ := succ_of_pos (le_trans (by simp [quoted]) hf)
    simp only [quoted, List.length_cons, List.length_append, List.length_nil] at hf
    have hv := parseValue_encode v rest f he (by omega)
    simp only [quoted, List.cons_append, List.append_assoc, List.nil_append, parseMember, if_true,
      parseChars_quoted, Option.some_bind, List.head?_cons, List.tail_cons, hv, Option.map_some']
theorem parseTail_encode : ∀ (xs : List Json) (rest : List Char) (fuel : Nat),
    (encodeTail xs).length + 1 ≤ fuel →
    parseTail fuel (encodeTail xs ++ ']' :: rest) = some (xs, rest)
  | [], rest, fuel, hf => by
    obtain ⟨f, rfl⟩ := succ_of_pos (le_trans (by omega) hf)
    simp [encodeTail, parseTail]
  | x :: xs, rest, fuel, hf => by
    obtain ⟨f, rfl⟩ := succ_of_pos (le_trans (by omega) hf)
    simp only [encodeTail, List.length_cons, List.length_append] at hf
    have hx := parseValue_encode x (encodeTail xs ++ ']' :: rest) f (endsNumber_tail xs rest)
      (by omega)
    have ht := parseTail_encode xs rest f (by omega)
    have hb : (',' : Char) ≠ ']' := by decide
    have e : encodeTail (x :: xs) ++ ']' :: rest =
        ',' :: (encode x ++ (encodeTail xs ++ ']' :: rest)) := by
      simp [encodeTail]
    rw [e, parseTail]
    simp only [hb, if_false, if_true, hx, Option.some_bind, ht, Option.map_some']
theorem parseMembers_encode : ∀ (kvs : List (String × Json)) (rest : List Char) (fuel : Nat),
    (encodeMembers kvs).length + 1 ≤ fuel →
    parseMembers fuel (encodeMembers kvs ++ '}' :: rest) = some (kvs, rest)
  | [], rest, fuel, hf => by
    obtain ⟨f, rfl⟩ := succ_of_pos (le_trans (by omega) hf)
    simp [encodeMembers, parseMembers]
  | (k, v) :: kvs, rest, fuel, hf => by
    obtain ⟨f, rfl⟩ := succ_of_pos (le_trans (by omega) hf)
    simp only [encodeMembers, List.length_cons, List.length_append] at hf
    have hm := parseMember_encode k v (encodeMembers kvs ++ '}' :: rest) f
      (endsNumber_members kvs rest) (by simp only [List.length_append, List.length_cons]; omega)
    have ht := parseMembers_encode kvs rest f (by omega)
    have hb : (',' : Char) ≠ '}' := by decide
    have e : encodeMembers ((k, v) :: kvs) ++ '}' :: rest =
        ',' :: (quoted k ++ ':' :: (encode v ++ (encodeMembers kvs ++ '}' :: rest))) := by
      simp [encodeMembers]
    rw [e, parseMembers]
    simp only [hb, if_false, if_true, hm, Option.some_bind, ht, Option.map_some']
end

theorem parse_stringify (j : Json) : parse (stringify j) = some j := by
  have h := parseValue_encode j [] ((encode j).length + 1) rfl (by omega)
  rw [List.append_nil] at h
  simp only [parse, stringify, h]

end Compact

/-! ## Facts about the model shared by the theorems below -/

theorem char_range (c : Char) :
    c.toNat < 0xd800 ∨ (0xdfff < c.toNat ∧ c.toNat < 0x110000) := by
  have h := c.valid
  simpa [UInt32.isValidChar, Nat.isValidChar, Char.toNat] using h

theorem utf8DecodeChars_encodeChar (c : Char) (rest : List Nat) :
    utf8DecodeChars (utf8EncodeChar c ++ rest) = c :: utf8DecodeChars rest := by
  have hr := char_range c
  have hc := Char.ofNat_toNat c
  unfold utf8EncodeChar
  split_ifs with h1 h2 h3
  · rw [List.singleton_append, utf8DecodeChars.eq_def]
    simp only [h1, if_true, hc]
  · have e1 : (0xc0 + c.toNat / 64) % 32 * 64 + (0x80 + c.toNat % 64) % 64 = c.toNat := by omega
    have a1 : ¬ (0xc0 + c.toNat / 64 < 0x80) := by omega
    have a2 : 0xc2 ≤ 0xc0 + c.toNat / 64 ∧ 0xc0 + c.toNat / 64 ≤ 0xdf := by omega
    have a3 : continues 0x80 0xbf (0x80 + c.toNat % 64) = true := by
      simp only [continues, Bool.and_eq_true, decide_eq_true_eq]; omega
    rw [List.cons_append, List.singleton_append, utf8DecodeChars.eq_def]
    simp only [a1, a2, a3, if_true, if_false, and_self, e1, hc]
  · have e1 : ((0xe0 + c.toNat / 4096) % 16 * 64 + (0x80 + c.toNat / 64 % 64) % 64) * 64 +
        (0x80 + c.toNat % 64) % 64 = c.toNat := by omega
    have a1 : ¬ (0xe0 + c.toNat / 4096 < 0x80) := by omega
    have a2 : ¬ (0xc2 ≤ 0xe0 + c.toNat / 4096 ∧ 0xe0 + c.toNat / 4096 ≤ 0xdf) := by omega
    have a3 : 0xe0 ≤ 0xe0 + c.toNat / 4096 ∧ 0xe0 + c.toNat / 4096 ≤ 0xef := by omega
    have a4 : continues (if 0xe0 + c.toNat / 4096 = 0xe0 then 0xa0 else 0x80)
        (if 0xe0 + c.toNat / 4096 = 0xed then 0x9f else 0xbf) (0x80 + c.toNat / 64 % 64) = true := by
      simp only [continues, Bool.and_eq_true, decide_eq_true_eq]
      split_ifs <;> omega
    have a5 : continues 0x80 0xbf (0x80 + c.toNat % 64) = true := by
      simp only [continues, Bool.and_eq_true, decide_eq_true_eq]; omega
    rw [List.cons_append, List.cons_append, List.singleton_append, utf8DecodeChars.eq_def]
    simp only [a1, a2, a3, a4, a5, if_true, if_false, and_self, e1, hc]
  · have e1 : (((0xf0 + c.toNat / 262144) % 8 * 64 + (0x80 + c.toNat / 4096 % 64) % 64) * 64 +
        (0x80 + c.toNat / 64 % 64) % 64) * 64 + (0x80 + c.toNat % 64) % 64 = c.toNat := by omega
    have a1 : ¬ (0xf0 + c.toNat / 262144 < 0x80) := by omega
    have a2 : ¬ (0xc2 ≤ 0xf0 + c.toNat / 262144 ∧ 0xf0 + c.toNat / 262144 ≤ 0xdf) := by omega
    have a3 : ¬ (0xe0 ≤ 0xf0 + c.toNat / 262144 ∧ 0xf0 + c.toNat / 262144 ≤ 0xef) := by omega
    have a4 : 0xf0 ≤ 0xf0 + c.toNat / 262144 ∧ 0xf0 + c.toNat / 262144 ≤ 0xf4 := by omega
    have a5 : continues (if 0xf0 + c.toNat / 262144 = 0xf0 then 0x90 else 0x80)
        (if 0xf0 + c.toNat / 262144 = 0xf4 then 0x8f else 0xbf)
        (0x80 + c.toNat / 4096 % 64) = true := by
      simp only [continues, Bool.and_eq_true, decide_eq_true_eq]
      split_ifs <;> omega
    have a6 : continues 0x80 0xbf (0x80 + c.toNat / 64 % 64) = true := by
      simp only [continues, Bool.and_eq_true, decide_eq_true_eq]; omega
    have a7 : continues 0x80 0xbf (0x80 + c.toNat % 64) = true := by
      simp only [continues, Bool.and_eq_true, decide_eq_true_eq]; omega
    rw [List.cons_append, List.cons_append, List.cons_append, List.singleton_append,
      utf8DecodeChars.eq_def]
    simp only [a1, a2, a3, a4, a5, a6, a7, if_true, if_false, and_self, e1, hc]

theorem utf8Decode_encode (text : String) : utf8Decode (utf8Encode text) = text := by
  have h : ∀ cs : List Char, utf8DecodeChars (cs.flatMap utf8EncodeChar) = cs := by
    intro cs
    induction cs with
    | nil => rw [List.flatMap_nil, utf8DecodeChars.eq_def]
    | cons c cs ih => rw [List.flatMap_cons, utf8DecodeChars_encodeChar, ih]
  simp only [utf8Decode, utf8Encode, h]

theorem compactJSON_parse_stringify (j : Json) :
    compactJSON.parse (compactJSON.stringify j) = some j :=
  Compact.parse_stringify j

theorem updateStagingArea_objects (J : JSON) (s : Repo) (p h : String) :
    (updateStagingArea J s p h).1.objects = s.objects ∧
    (updateStagingArea J s p h).1.head = s.head := by
  unfold updateStagingArea
  split
  · exact ⟨rfl, rfl⟩
  · split <;> exact ⟨rfl, rfl⟩

theorem add_objects (J : JSON) (sha1 : String → Nat) (s : Repo) (p data : String) :
    (add J sha1 s p (some data)).repo.objects = (hashObject sha1 data, data) :: s.objects ∧
    (add J sha1 s p (some data)).repo.head = s.head := by
  have h := updateStagingArea_objects J (s.writeObject (hashObject sha1 data) data) p
    (hashObject sha1 data)
  unfold add
  simp only
  split <;> rename_i heq <;> rw [heq] at h <;> exact h

theorem findByPath_entries (p : String) (files : List (String × String)) :
    findByPath (some (.str p)) (files.map fun e => stagingEntry e.1 e.2) =
      .ok ((files.find? (fun e => e.1 == p)).map fun e => stagingEntry e.1 e.2) := by
  induction files with
  | nil => rfl
  | cons e rest ih =>
    by_cases h : e.1 = p
    · simp [findByPath, stagingEntry, getProp, List.lookup, strictEq, h]
    · have hb : (e.1 == p) = false := by simpa using h
      simp only [List.map_cons, findByPath, List.find?_cons, hb]
      simp only [stagingEntry, getProp, List.lookup, strictEq]
      simpa [stagingEntry, h] using ih

theorem showFile_entry (J : JSON) (diffLines : String → String → List Change) (s : Repo)
    (now m : String) (files : Json) (parent : Json)
    (parentFiles : Option (List (String × String))) (e : String × String) (content : String)
    (hblob : s.readObject e.2 = some content)
    (hpar : ParentIs J s parent [e.1] parentFiles) :
    showFile J diffLines s (commitRecord now m files parent) (stagingEntry e.1 e.2) =
      ⟨reportAgainstParent diffLines (contentOf s) parentFiles e, none⟩ := by
  cases parentFiles with
  | none =>
    simp only [ParentIs] at hpar
    simp [showFile, stagingEntry, getProp, List.lookup, getFileContent, hblob, commitRecord,
      hpar, reportAgainstParent]
  | some pf =>
    obtain ⟨name, text, pnow, pm, gp, rfl, hne, hread, hparse, hfirst⟩ := hpar
    have ht : truthy (some (Json.str name)) = true := by simp [truthy, hne]
    have hfind := findByPath_entries e.1 pf
    cases hf : pf.find? (fun x => x.1 == e.1) with
    | none =>
      rw [hf] at hfind
      simp [showFile, stagingEntry, getProp, List.lookup, getFileContent, hblob, commitRecord,
        ht, getCommitData, hread, hparse, getParentFileContent, entries, reportAgainstParent, hf]
      simp [stagingEntry] at hfind
      simp [hfind]
    | some old =>
      rw [hf] at hfind
      obtain ⟨oc, hoc⟩ := hfirst e.1 (List.mem_singleton.mpr rfl) old hf
      simp [stagingEntry] at hfind
      simp [showFile, stagingEntry, getProp, List.lookup, getFileContent, hblob, commitRecord,
        ht, getCommitData, hread, hparse, getParentFileContent, entries, reportAgainstParent, hf,
        hfind, truthy, hoc, contentOf, hne]

theorem ParentIs_mono (J : JSON) (s : Repo) (parent : Json) (paths paths2 : List String)
    (parentFiles : Option (List (String × String))) (hsub : ∀ p ∈ paths2, p ∈ paths)
    (h : ParentIs J s parent paths parentFiles) : ParentIs J s parent paths2 parentFiles := by
  cases parentFiles with
  | none => exact h
  | some pf =>
    obtain ⟨name, text, now, m, gp, h1, h2, h3, h4, h5⟩ := h
    exact ⟨name, text, now, m, gp, h1, h2, h3, h4, fun p hp => h5 p (hsub p hp)⟩

theorem showFiles_entries (J : JSON) (diffLines : String → String → List Change) (s : Repo)
    (now m : String) (filesJson parent : Json) (parentFiles : Option (List (String × String)))
    (files : List (String × String))
    (hblobs : ∀ e ∈ files, ∃ content, s.readObject e.2 = some content)
    (hpar : ParentIs J s parent (files.map Prod.fst) parentFiles) :
    showFiles J diffLines s (commitRecord now m filesJson parent)
        (files.map fun e => stagingEntry e.1 e.2) =
      ⟨files.flatMap (reportAgainstParent diffLines (contentOf s) parentFiles), none⟩ := by
  induction files with
  | nil => rfl
  | cons e rest ih =>
    obtain ⟨content, hc⟩ := hblobs e (List.mem_cons_self _ _)
    have h1 := showFile_entry J diffLines s now m filesJson parent parentFiles e content hc
      (ParentIs_mono J s parent _ _ parentFiles (by simp) hpar)
    have h2 := ih (fun x hx => hblobs x (List.mem_cons_of_mem _ hx))
      (ParentIs_mono J s parent _ _ parentFiles
        (fun p hp => by rw [List.map_cons]; exact List.mem_cons_of_mem _ hp) hpar)
    simp only [List.map_cons, showFiles, h1, h2, List.flatMap_cons]

theorem hexDigits_length (w v : Nat) : (hexDigits w v).length = w := by
  induction w generalizing v with
  | zero => rfl
  | succ w ih => simp [hexDigits, ih]

theorem hashObject_ne_empty (sha1 : String → Nat) (content : String) :
    hashObject sha1 content ≠ "" := by
  intro h
  have h2 : (hashObject sha1 content).data.length = 0 := by rw [h]; rfl
  simp [hashObject, hexDigits_length] at h2

theorem run_acc (J : JSON) (sha1 : String → Nat) (ops : List Op) (s : Repo) (o : List Out) :
    ops.foldl (fun acc op =>
        ((step J sha1 acc.1 op).repo, acc.2 ++ (step J sha1 acc.1 op).out)) (s, o) =
      ((run J sha1 s ops).1, o ++ (run J sha1 s ops).2) := by
  induction ops generalizing s o with
  | nil => simp [run]
  | cons op rest ih =>
    simp only [run, List.foldl_cons, List.nil_append]
    rw [ih, ih (step J sha1 s op).repo (step J sha1 s op).out]
    simp [run, List.append_assoc]

theorem run_cons (J : JSON) (sha1 : String → Nat) (s : Repo) (op : Op) (ops : List Op) :
    run J sha1 s (op :: ops) =
      ((run J sha1 (step J sha1 s op).repo ops).1,
        (step J sha1 s op).out ++ (run J sha1 (step J sha1 s op).repo ops).2) := by
  have h := run_acc J sha1 ops (step J sha1 s op).repo (step J sha1 s op).out
  simpa [run] using h

theorem Links_mono (J : JSON) (s s2 : Repo) (hsub : ∀ e ∈ s.objects, e ∈ s2.objects)
    (chain : List (String × String × String)) (h : Links J s chain) : Links J s2 chain := by
  induction chain with
  | nil => trivial
  | cons c rest ih =>
    obtain ⟨h1, ⟨files, h2, h3⟩, h4⟩ := h
    refine ⟨h1, ⟨files, hsub _ h2, ?_⟩, ih h4⟩
    intro e he
    obtain ⟨content, hc⟩ := h3 e he
    exact ⟨content, hsub _ hc⟩

theorem step_inv (J : JSON) (sha1 : String → Nat) (hJ : ∀ j, J.parse (J.stringify j) = some j)
    (s : Repo) (chain : List (String × String × String)) (staged : List (String × String))
    (h : Inv J s chain staged) (op : Op) :
    ∃ made staged2, Inv J (step J sha1 s op).repo (made ++ chain) staged2 ∧
      made.map Prod.fst = (commitHashes (step J sha1 s op).out).reverse ∧
      made.map Prod.snd = (commitArgs [op]).reverse := by
  obtain ⟨hhead, hindex, hstaged, hlinks⟩ := h
  cases op with
  | add p d =>
    cases d with
    | none => exact ⟨[], staged, ⟨hhead, hindex, hstaged, hlinks⟩, rfl, rfl⟩
    | some data =>
      have hsub : ∀ e ∈ s.objects, e ∈ (hashObject sha1 data, data) :: s.objects :=
        fun e he => List.mem_cons_of_mem _ he
      refine ⟨[], staged ++ [(p, hashObject sha1 data)], ⟨?_, ?_, ?_, ?_⟩, ?_, rfl⟩
      · simpa [step, (add_objects J sha1 s p data).2] using hhead
      · simp only [step, add, updateStagingArea, Repo.writeObject, hindex, hJ, entries]
        simp
      · intro e he
        rw [show (step J sha1 s (Op.add p (some data))).repo.objects =
          (hashObject sha1 data, data) :: s.objects from (add_objects J sha1 s p data).1]
        rcases List.mem_append.mp he with he | he
        · obtain ⟨c, hc⟩ := hstaged e he
          exact ⟨c, hsub _ hc⟩
        · rw [List.mem_singleton] at he
          subst he
          exact ⟨data, List.mem_cons_self _ _⟩
      · apply Links_mono J s _ _ chain hlinks
        intro e he
        rw [show (step J sha1 s (Op.add p (some data))).repo.objects =
          (hashObject sha1 data, data) :: s.objects from (add_objects J sha1 s p data).1]
        exact hsub e he
      · simp only [step, add, updateStagingArea, Repo.writeObject, hindex, hJ, entries]
        rfl
  | commit now m =>
    have hg : getCurrentHead s = .str (headOf chain) := by simp [getCurrentHead, hhead]
    have hstep : step J sha1 s (Op.commit now m) =
        ⟨{ objects := (hashObject sha1 (J.stringify
              (commitRecord now m (entries staged) (.str (headOf chain)))),
            J.stringify (commitRecord now m (entries staged) (.str (headOf chain)))) ::
              s.objects,
           head := some (hashObject sha1 (J.stringify
              (commitRecord now m (entries staged) (.str (headOf chain))))),
           index := some (J.stringify (.arr [])) },
          [.committed (hashObject sha1 (J.stringify
              (commitRecord now m (entries staged) (.str (headOf chain)))))], none⟩ := by
      simp only [step, commit, hindex, hJ, hg]
    rw [hstep]
    refine ⟨[(hashObject sha1 (J.stringify
        (commitRecord now m (entries staged) (.str (headOf chain)))), now, m)], [],
      ⟨rfl, rfl, ?_, ?_⟩, rfl, rfl⟩
    · intro e he
      exact absurd he (List.not_mem_nil _)
    · refine ⟨hashObject_ne_empty _ _, ⟨staged, List.mem_cons_self _ _, ?_⟩, ?_⟩
      · intro e he
        obtain ⟨c, hc⟩ := hstaged e he
        exact ⟨c, List.mem_cons_of_mem _ hc⟩
      · exact Links_mono J s _ (fun e he => List.mem_cons_of_mem _ he) chain hlinks

theorem commitHashes_append (a b : List Out) :
    commitHashes (a ++ b) = commitHashes a ++ commitHashes b := by
  simp [commitHashes]

theorem commitArgs_cons (op : Op) (ops : List Op) :
    commitArgs (op :: ops) = commitArgs [op] ++ commitArgs ops := by
  cases op <;> simp [commitArgs, List.filterMap_cons]

theorem run_inv (J : JSON) (sha1 : String → Nat) (hJ : ∀ j, J.parse (J.stringify j) = some j)
    (ops : List Op) : ∀ (s : Repo) (chain : List (String × String × String))
    (staged : List (String × String)), Inv J s chain staged →
    ∃ made staged2, Inv J (run J sha1 s ops).1 (made ++ chain) staged2 ∧
      made.map Prod.fst = (commitHashes (run J sha1 s ops).2).reverse ∧
      made.map Prod.snd = (commitArgs ops).reverse := by
  induction ops with
  | nil =>
    intro s chain staged h
    exact ⟨[], staged, h, rfl, rfl⟩
  | cons op rest ih =>
    intro s chain staged h
    obtain ⟨m1, st1, h1, hh1, ha1⟩ := step_inv J sha1 hJ s chain staged h op
    obtain ⟨m2, st2, h2, hh2, ha2⟩ := ih (step J sha1 s op).repo (m1 ++ chain) st1 h1
    refine ⟨m2 ++ m1, st2, ?_, ?_, ?_⟩
    · rw [run_cons, List.append_assoc]; exact h2
    · rw [run_cons, commitHashes_append, List.reverse_append, List.map_append, hh1, hh2]
    · rw [commitArgs_cons, List.reverse_append, List.map_append, ha1, ha2]

theorem fresh_inv (J : JSON) : Inv J (fresh J) [] [] :=
  ⟨rfl, rfl, fun _ he => absurd he (List.not_mem_nil _), trivial⟩

theorem readObject_of_mem (objects : List (String × String)) (hnc : NoCollision objects)
    (name content : String) (h : (name, content) ∈ objects) :
    objects.lookup name = some content := by
  induction objects with
  | nil => cases h
  | cons e rest ih =>
    obtain ⟨k, v⟩ := e
    by_cases hk : name = k
    · subst hk
      have hv : v = content :=
        hnc (name, v) (List.mem_cons_self _ _) (name, content) h rfl
      simp [List.lookup, hv]
    · have hb : (name == k) = false := by simpa using hk
      have hrest : (name, content) ∈ rest := by
        rcases List.mem_cons.mp h with h | h
        · exact absurd (congrArg Prod.fst h) hk
        · exact h
      simp only [List.lookup, hb]
      exact ih (fun e1 h1 e2 h2 => hnc e1 (List.mem_cons_of_mem _ h1) e2
        (List.mem_cons_of_mem _ h2)) hrest

theorem logFrom_chain (J : JSON) (hJ : ∀ j, J.parse (J.stringify j) = some j) (s : Repo)
    (hnc : NoCollision s.objects) (chain : List (String × String × String))
    (h : Links J s chain) :
    ∀ fuel, chain.length < fuel →
      logFrom J s fuel (some (.str (headOf chain))) = some ⟨logLines chain, none⟩ := by
  induction chain with
  | nil =>
    intro fuel hf
    obtain ⟨f, rfl⟩ : ∃ f, fuel = f + 1 := ⟨fuel - 1, by simp at hf; omega⟩
    simp [logFrom, headOf, truthy, logLines]
  | cons c rest ih =>
    intro fuel hf
    obtain ⟨f, rfl⟩ : ∃ f, fuel = f + 1 := ⟨fuel - 1, by omega⟩
    obtain ⟨h1, ⟨files, h2, -⟩, h4⟩ := h
    have hread := readObject_of_mem s.objects hnc _ _ h2
    have hrec := ih h4 f (by simp at hf; omega)
    have ht : truthy (some (Json.str c.1)) = true := by simp [truthy, h1]
    have hc : headOf (c :: rest) = c.1 := rfl
    simp only [logFrom, hc, ht, if_true, getCommitData, Repo.readObject, hread, hJ]
    simp only [commitRecord, getProp, List.lookup]
    simp [hrec, logLines]

theorem Links_parents (J : JSON) (s : Repo) (hnc : NoCollision s.objects)
    (chain : List (String × String × String)) (h : Links J s chain) :
    ∀ pair ∈ List.zip (chain.map Prod.fst) ((chain.map Prod.fst).tail ++ [""]),
      ∃ now m files, s.readObject pair.1 =
        some (J.stringify (commitRecord now m files (.str pair.2))) := by
  induction chain with
  | nil => intro pair hp; simp at hp
  | cons c rest ih =>
    obtain ⟨-, ⟨files, h2, -⟩, h4⟩ := h
    have hread := readObject_of_mem s.objects hnc _ _ h2
    intro pair hp
    cases rest with
    | nil =>
      simp only [List.map_cons, List.map_nil, List.tail_cons, List.nil_append, List.zip_cons_cons,
        List.zip_nil_right, List.mem_singleton] at hp
      subst hp
      exact ⟨_, _, _, hread⟩
    | cons d rest2 =>
      simp only [List.map_cons, List.tail_cons, List.cons_append, List.zip_cons_cons,
        List.mem_cons] at hp
      rcases hp with hp | hp
      · subst hp
        exact ⟨_, _, _, hread⟩
      · apply ih h4
        simpa using hp

theorem Links_refs (J : JSON) (s : Repo) (hnc : NoCollision s.objects)
    (chain : List (String × String × String)) (h : Links J s chain) :
    ∀ c ∈ chain, ∃ (files : List (String × String)) (parent : String),
      s.readObject c.1 =
        some (J.stringify (commitRecord c.2.1 c.2.2 (entries files) (.str parent))) ∧
      (∀ e ∈ files, ∃ content, s.readObject e.2 = some content) ∧
      (parent = "" ∨ parent ∈ chain.map Prod.fst) := by
  induction chain with
  | nil => intro c hc; cases hc
  | cons d rest ih =>
    obtain ⟨-, ⟨files, h2, h3⟩, h4⟩ := h
    intro c hc
    rcases List.mem_cons.mp hc with hc | hc
    · subst hc
      refine ⟨files, headOf rest, readObject_of_mem s.objects hnc _ _ h2, ?_, ?_⟩
      · intro e he
        obtain ⟨content, hcont⟩ := h3 e he
        exact ⟨content, readObject_of_mem s.objects hnc _ _ hcont⟩
      · cases rest with
        | nil => exact Or.inl rfl
        | cons r rest2 => exact Or.inr (by simp [headOf])
    · obtain ⟨fs, parent, h5, h6, h7⟩ := ih h4 c hc
      refine ⟨fs, parent, h5, h6, ?_⟩
      rcases h7 with h7 | h7
      · exact Or.inl h7
      · exact Or.inr (List.mem_cons_of_mem _ h7)

theorem hexDigit_isAlphanum : ∀ d, d < 16 → (hexDigit d).isAlphanum = true := by
  decide

theorem hexDigits_isAlphanum (w v : Nat) : ∀ c ∈ hexDigits w v, c.isAlphanum = true := by
  induction w generalizing v with
  | zero => intro c hc; cases hc
  | succ w ih =>
    intro c hc
    simp only [hexDigits, List.mem_append, List.mem_singleton] at hc
    rcases hc with hc | hc
    · exact ih _ c hc
    · subst hc
      exact hexDigit_isAlphanum _ (Nat.mod_lt _ (by norm_num))

theorem hashObject_plainName (sha1 : String → Nat) (content : String) :
    PlainName (hashObject sha1 content) :=
  ⟨hashObject_ne_empty sha1 content, hexDigits_isAlphanum 40 _⟩

theorem getFileContent_after_add (J : JSON) (sha1 : String → Nat) (s : Repo)
    (p b : String) :
    getFileContent (add J sha1 s p (some b)).repo (some (.str (hashObject sha1 b))) = .ok b := by
  simp [getFileContent, Repo.readObject, (add_objects J sha1 s p b).1, List.lookup]

theorem add_prints_hash (J : JSON) (sha1 : String → Nat) (s : Repo) (p b : String) :
    ∃ rest, (add J sha1 s p (some b)).out = .hash (hashObject sha1 b) :: rest := by
  unfold add
  simp only
  split
  · exact ⟨[], rfl⟩
  · exact ⟨_, rfl⟩

/-! ## The claims -/

-- The closed examples below evaluate whole command sequences.
set_option maxRecDepth 1000000

/-- C1: On a repository whose HEAD file holds `H` and whose index file parses
to `I`, `commit(m)` is not rejected; it stores the text of the record
`{timeStamp, message: m, files: I, parent: H}` under the hash of that text,
leaves that hash in HEAD, and leaves the serialised empty list in the index
file. -/
theorem commit_stores_record (J : JSON) (sha1 : String → Nat) (s : Repo)
    (now m text H : String) (I : Json)
    (hidx : s.index = some text) (hI : J.parse text = some I) (hH : s.head = some H) :
    (commit J sha1 s now m).error = none ∧
    (commit J sha1 s now m).repo.readObject
        (hashObject sha1 (J.stringify (commitRecord now m I (.str H)))) =
      some (J.stringify (commitRecord now m I (.str H))) ∧
    getProp (commitRecord now m I (.str H)) "files" = .ok (some I) ∧
    getProp (commitRecord now m I (.str H)) "parent" = .ok (some (.str H)) ∧
    getProp (commitRecord now m I (.str H)) "message" = .ok (some (.str m)) ∧
    (commit J sha1 s now m).repo.head =
      some (hashObject sha1 (J.stringify (commitRecord now m I (.str H)))) ∧
    (commit J sha1 s now m).repo.index = some (J.stringify (.arr [])) ∧
    (commit J sha1 s now m).out =
      [.committed (hashObject sha1 (J.stringify (commitRecord now m I (.str H))))] := by
  have hg : getCurrentHead s = .str H := by simp [getCurrentHead, hH]
  simp only [commit, hidx, hI, hg, Repo.readObject, List.lookup, beq_self_eq_true, true_and]
  refine ⟨?_, ?_, ?_⟩ <;> simp [commitRecord, getProp, List.lookup]

/-- C1 at a concrete repository: two staged entries with the same path are
both in the record, under the head that was there. -/
theorem commit_stores_record_witness :
    (commit compactJSON sampleDigest
        ⟨[], some "", some (compactJSON.stringify (entries [("a.txt", "h1"), ("a.txt", "h2")]))⟩
        "t" "m").repo.head =
      some (hashObject sampleDigest (compactJSON.stringify
        (commitRecord "t" "m" (entries [("a.txt", "h1"), ("a.txt", "h2")]) (.str "")))) :=
  (commit_stores_record compactJSON sampleDigest
    ⟨[], some "", some (compactJSON.stringify (entries [("a.txt", "h1"), ("a.txt", "h2")]))⟩
    "t" "m" _ "" (entries [("a.txt", "h1"), ("a.txt", "h2")]) rfl
    (compactJSON_parse_stringify _) rfl).2.2.2.2.2.1

/-- C2: Take any sequence of `add` and `commit` commands run on a freshly
initialised repository, with a JSON codec that reads back what it writes and
without two stored contents under one hash. Then `commit` printed as many
hashes as there are `commit` commands; with more fuel than that number `log`
ends without error and prints exactly these commits, newest first, each with
its time and message; and each commit visited is stored as a record whose
parent is the hash of the commit visited next, the one created just before
it, the oldest having the empty string, which ends the walk. -/
theorem log_walks_all_commits (J : JSON) (sha1 : String → Nat)
    (hJ : ∀ j, J.parse (J.stringify j) = some j) (ops : List Op)
    (hnc : NoCollision (run J sha1 (fresh J) ops).1.objects) :
    (commitHashes (run J sha1 (fresh J) ops).2).length = (commitArgs ops).length ∧
    (∀ fuel, (commitArgs ops).length < fuel →
      log J (run J sha1 (fresh J) ops).1 fuel =
        some ⟨logLines (List.zip (commitHashes (run J sha1 (fresh J) ops).2).reverse
          (commitArgs ops).reverse), none⟩) ∧
    (∀ pair ∈ List.zip (commitHashes (run J sha1 (fresh J) ops).2).reverse
        ((commitHashes (run J sha1 (fresh J) ops).2).reverse.tail ++ [""]),
      ∃ now m files, (run J sha1 (fresh J) ops).1.readObject pair.1 =
        some (J.stringify (commitRecord now m files (.str pair.2)))) := by
  obtain ⟨made, staged, hinv, hh, ha⟩ := run_inv J sha1 hJ ops (fresh J) [] [] (fresh_inv J)
  rw [List.append_nil] at hinv
  obtain ⟨hhead, -, -, hlinks⟩ := hinv
  have hlen : (commitHashes (run J sha1 (fresh J) ops).2).length = (commitArgs ops).length := by
    have h1 := congrArg List.length hh
    have h2 := congrArg List.length ha
    simp only [List.length_map, List.length_reverse] at h1 h2
    omega
  have hzip : made = List.zip (commitHashes (run J sha1 (fresh J) ops).2).reverse
      (commitArgs ops).reverse := List.zip_of_prod hh ha
  refine ⟨hlen, ?_, ?_⟩
  · intro fuel hf
    have hg : getCurrentHead (run J sha1 (fresh J) ops).1 = .str (headOf made) := by
      simp [getCurrentHead, hhead]
    have hm : made.length < fuel := by
      have h2 := congrArg List.length ha
      simp only [List.length_map, List.length_reverse] at h2
      omega
    rw [log, hg, logFrom_chain J hJ _ hnc made hlinks fuel hm, hzip]
  · rw [← hh]
    exact Links_parents J _ hnc made hlinks

/-- C2 at the example scenario of the spec, two commits: the hypotheses hold
for the compact codec and the sample digest, and `log` prints the second
commit and then the first. -/
theorem log_walks_all_commits_witness :
    NoCollision (run compactJSON sampleDigest (fresh compactJSON) scenario).1.objects ∧
    log compactJSON (run compactJSON sampleDigest (fresh compactJSON) scenario).1 3 =
      some ⟨logLines (List.zip
        (commitHashes (run compactJSON sampleDigest (fresh compactJSON) scenario).2).reverse
        (commitArgs scenario).reverse), none⟩ :=
  ⟨by unfold NoCollision; decide,
    (log_walks_all_commits compactJSON sampleDigest compactJSON_parse_stringify scenario
      (by unfold NoCollision; decide)).2.1 3 (by decide)⟩

/-- C3: On an index file that parses to the list `I`, `add(p)` of a readable
file with content `c` is not rejected and leaves the index file with the
text of `I` followed by the one entry `{path: p, hash: hashObject(c)}`,
whatever paths `I` already holds; a second `add` then puts its entry behind
that one. -/
theorem add_appends_entry (J : JSON) (sha1 : String → Nat) (s : Repo)
    (p c text : String) (I : List Json)
    (hidx : s.index = some text) (hI : J.parse text = some (.arr I)) :
    (add J sha1 s p (some c)).error = none ∧
    (add J sha1 s p (some c)).repo.index =
      some (J.stringify (.arr (I ++
        [.obj [("path", .str p), ("hash", .str (hashObject sha1 c))]]))) ∧
    ∀ p2 c2 : String,
      J.parse (J.stringify (.arr (I ++
          [.obj [("path", .str p), ("hash", .str (hashObject sha1 c))]]))) =
        some (.arr (I ++ [.obj [("path", .str p), ("hash", .str (hashObject sha1 c))]])) →
      (add J sha1 (add J sha1 s p (some c)).repo p2 (some c2)).repo.index =
        some (J.stringify (.arr (I ++
          [.obj [("path", .str p), ("hash", .str (hashObject sha1 c))],
            .obj [("path", .str p2), ("hash", .str (hashObject sha1 c2))]]))) := by
  have key : ∀ (s : Repo) (p c text : String) (I : List Json), s.index = some text →
      J.parse text = some (.arr I) →
      (add J sha1 s p (some c)).error = none ∧
      (add J sha1 s p (some c)).repo.index =
        some (J.stringify (.arr (I ++
          [.obj [("path", .str p), ("hash", .str (hashObject sha1 c))]]))) := by
    intro s p c text I h1 h2
    simp [add, updateStagingArea, Repo.writeObject, stagingEntry, h1, h2]
  obtain ⟨h1, h2⟩ := key s p c text I hidx hI
  refine ⟨h1, h2, ?_⟩
  intro p2 c2 hrt
  have h3 := (key (add J sha1 s p (some c)).repo p2 c2 _ _ h2 hrt).2
  simpa using h3

/-- C3 at a concrete repository: from the empty index, adding the same path
twice leaves exactly the two entries, in the order of the calls. -/
theorem add_appends_entry_witness :
    (add compactJSON sampleDigest
        (add compactJSON sampleDigest ⟨[], some "", some "[]"⟩ "f" (some "x")).repo
        "f" (some "y")).repo.index =
      some (compactJSON.stringify (.arr ([] ++
        [.obj [("path", .str "f"), ("hash", .str (hashObject sampleDigest "x"))],
          .obj [("path", .str "f"), ("hash", .str (hashObject sampleDigest "y"))]]))) :=
  (add_appends_entry compactJSON sampleDigest ⟨[], some "", some "[]"⟩ "f" "x" "[]" []
    rfl (by rfl)).2.2 "f" "y" (compactJSON_parse_stringify _)

/-- C4, as the code behaves: `add` reads the file as UTF-8 text, prints the
hash of that text and stores the text under it, and `getFileContent` under
that hash yields the text. So for a file whose bytes are the UTF-8 encoding
of a text, what is read back is exactly that text; for any bytes it is their
decoding, in which each ill-formed sequence has become U+FFFD. -/
theorem getFileContent_after_add_bytes (J : JSON) (sha1 : String → Nat) (s : Repo)
    (p : String) :
    (∀ bytes : List Nat,
      (∃ rest, (add J sha1 s p (readFile (some bytes))).out =
        .hash (hashObject sha1 (utf8Decode bytes)) :: rest) ∧
      getFileContent (add J sha1 s p (readFile (some bytes))).repo
        (some (.str (hashObject sha1 (utf8Decode bytes)))) = .ok (utf8Decode bytes)) ∧
    (∀ text : String,
      (∃ rest, (add J sha1 s p (readFile (some (utf8Encode text)))).out =
        .hash (hashObject sha1 text) :: rest) ∧
      getFileContent (add J sha1 s p (readFile (some (utf8Encode text)))).repo
        (some (.str (hashObject sha1 text))) = .ok text) := by
  constructor
  · intro bytes
    exact ⟨add_prints_hash J sha1 s p _, getFileContent_after_add J sha1 s p _⟩
  · intro text
    have h : readFile (some (utf8Encode text)) = some text := by
      simp [readFile, utf8Decode_encode]
    rw [h]
    exact ⟨add_prints_hash J sha1 s p _, getFileContent_after_add J sha1 s p _⟩

/-- C4 as stated fails: for the file with the three bytes `61 ff 62`, which
are not UTF-8, what `getFileContent` yields under the hash `add` computed is
the text `a`, U+FFFD, `b`, whose bytes `61 ef bf bd 62` are not the content
of the file. -/
theorem add_replaces_invalid_bytes :
    getFileContent
        (add compactJSON sampleDigest (fresh compactJSON) "f"
          (readFile (some [0x61, 0xff, 0x62]))).repo
        (some (.str (hashObject sampleDigest (utf8Decode [0x61, 0xff, 0x62])))) =
      .ok "a\uFFFDb" ∧
    utf8Encode "a\uFFFDb" = [0x61, 0xef, 0xbf, 0xbd, 0x62] ∧
    utf8Encode "a\uFFFDb" ≠ [0x61, 0xff, 0x62] := by
  refine ⟨?_, by decide, by decide⟩
  rfl

/-- C5: For a stored commit record with the file entries `files`, whose
contents are all stored, `showCommitDiff` prints for each entry, in order,
what `reportAgainstParent` says: the file heading and `first commit` when the
record has no parent; the heading and `new file` when the parent record has no
entry with that path; otherwise the heading and the rendered `diffLines` of
the content of the first parent entry with that path against the content
stored under the entry's hash. -/
theorem showCommitDiff_against_parent (J : JSON) (diffLines : String → String → List Change)
    (s : Repo) (commitHash text now m : String) (files : List (String × String))
    (parent : Json) (parentFiles : Option (List (String × String)))
    (hread : s.readObject commitHash = some text)
    (hparse : J.parse text = some (commitRecord now m (entries files) parent))
    (hblobs : ∀ e ∈ files, ∃ content, s.readObject e.2 = some content)
    (hpar : ParentIs J s parent (files.map Prod.fst) parentFiles) :
    showCommitDiff J diffLines s commitHash =
      ⟨files.flatMap (reportAgainstParent diffLines (contentOf s) parentFiles), none⟩ := by
  have h := showFiles_entries J diffLines s now m (entries files) parent parentFiles files
    hblobs hpar
  simp only [showCommitDiff, getCommitData, hread, hparse]
  have ht : truthy (some (commitRecord now m (entries files) parent)) = true := rfl
  have hf : getProp (commitRecord now m (entries files) parent) "files" =
      .ok (some (entries files)) := by
    simp [commitRecord, getProp, List.lookup]
  rw [if_pos ht, hf]
  simp only [entries, iterate]
  simp only [entries] at h
  rw [h]
  simp

/-- C5 at the repository of the example scenario of the spec: `a.txt` is
committed twice, first as `hello`, then with a second line; the diff of the
second commit is taken against the content of the first and the first commit
is reported without a diff; a path the parent does not have is new. -/
theorem showCommitDiff_against_parent_witness :
    showCommitDiff compactJSON sampleDiff
        ⟨[("c2", compactJSON.stringify (commitRecord "t2" "second"
              (entries [("a.txt", "b2"), ("n.txt", "b1")]) (.str "c1"))),
          ("b2", "hello\nworld\n"),
          ("c1", compactJSON.stringify (commitRecord "t1" "first"
              (entries [("a.txt", "b1"), ("a.txt", "b2")]) (.str ""))),
          ("b1", "hello\n")], some "c2", some "[]"⟩ "c2" =
      ⟨[.fileLine (some (.str "a.txt")), .diffHeader, .diffRemoved "hello\n",
        .diffAdded "hello\nworld\n", .fileLine (some (.str "n.txt")), .newFile], none⟩ :=
  showCommitDiff_against_parent compactJSON sampleDiff _ "c2" _ "t2" "second"
    [("a.txt", "b2"), ("n.txt", "b1")] (.str "c1")
    (some [("a.txt", "b1"), ("a.txt", "b2")]) rfl (compactJSON_parse_stringify _)
    (by
      intro e he
      simp only [List.mem_cons, List.mem_singleton, List.not_mem_nil, or_false] at he
      rcases he with rfl | rfl
      · exact ⟨_, rfl⟩
      · exact ⟨_, rfl⟩)
    ⟨"c1", _, "t1", "first", .str "", rfl, by decide, rfl, compactJSON_parse_stringify _, by
      intro p hp old hold
      simp only [List.map_cons, List.map_nil, List.mem_cons, List.mem_singleton,
        List.not_mem_nil, or_false] at hp
      rcases hp with rfl | rfl
      · have : old = ("a.txt", "b1") := by
          have h2 : List.find? (fun e => e.1 == "a.txt") [("a.txt", "b1"), ("a.txt", "b2")] =
            some ("a.txt", "b1") := by decide
          rw [h2] at hold
          exact (Option.some.inj hold).symm
        subst this
        exact ⟨_, rfl⟩
      · have h2 : List.find? (fun e => e.1 == "n.txt") [("a.txt", "b1"), ("a.txt", "b2")] =
          none := by decide
        rw [h2] at hold
        cases hold⟩

/-- C6, as the code behaves: `getCurrentHead` yields `null` exactly when the
HEAD file cannot be read and the content of the file otherwise; after `init`
on an empty directory that content is the empty string, it stays so while
only `add` runs, and the commit made then records `parent = ""`. -/
theorem getCurrentHead_of_fresh (J : JSON) (sha1 : String → Nat) :
    (∀ s : Repo, s.head = none → getCurrentHead s = .null) ∧
    (∀ (s : Repo) (h : String), s.head = some h → getCurrentHead s = .str h) ∧
    getCurrentHead (fresh J) = .str "" ∧
    (∀ (s : Repo) (p : String) (d : Option String),
      getCurrentHead (add J sha1 s p d).repo = getCurrentHead s) ∧
    (∀ (s : Repo) (now m text : String) (I : Json), getCurrentHead s = .str "" →
      s.index = some text → J.parse text = some I →
      (commit J sha1 s now m).repo.objects =
        (hashObject sha1 (J.stringify (commitRecord now m I (.str ""))),
          J.stringify (commitRecord now m I (.str ""))) :: s.objects) := by
  refine ⟨?_, ?_, rfl, ?_, ?_⟩
  · intro s h; simp [getCurrentHead, h]
  · intro s h hs; simp [getCurrentHead, hs]
  · intro s p d
    cases d with
    | none => rfl
    | some data => simp [getCurrentHead, (add_objects J sha1 s p data).2]
  · intro s now m text I hg hidx hI
    simp [commit, hidx, hI, hg]

/-- C6 at a concrete repository: the first commit after `init` stores a record whose parent is the empty string. -/
theorem getCurrentHead_of_fresh_witness :
    (commit compactJSON sampleDigest (fresh compactJSON) "t" "first").repo.objects =
      (hashObject sampleDigest
          (compactJSON.stringify (commitRecord "t" "first" (.arr []) (.str ""))),
        compactJSON.stringify (commitRecord "t" "first" (.arr []) (.str ""))) ::
        (fresh compactJSON).objects :=
  (getCurrentHead_of_fresh compactJSON sampleDigest).2.2.2.2 (fresh compactJSON) "t" "first"
    "[]" (.arr []) rfl rfl (by rfl)

/-- C6 as stated fails: on a freshly initialised repository `getCurrentHead`
yields the empty string, which is not `null`, and the first commit stores a
record whose text ends in `"parent":""`. -/
theorem getCurrentHead_fresh_not_null :
    getCurrentHead (fresh compactJSON) = .str "" ∧
    getCurrentHead (fresh compactJSON) ≠ .null ∧
    (commit compactJSON sampleDigest (fresh compactJSON) "t" "first").repo.objects.map Prod.snd =
      ["\x7b\"timeStamp\":\"t\",\"message\":\"first\",\"files\":[],\"parent\":\"\"\x7d"] := by
  refine ⟨rfl, ?_, by decide⟩
  intro h
  cases h

/-- C7, as the code behaves: `init` never touches the stored objects and
never replaces an existing HEAD or index file. Where HEAD exists nothing
changes at all. Where HEAD is missing it is created empty, also when an
index file is already there, and the index file is created with the empty
list only if it is missing too. -/
theorem init_keeps_existing (J : JSON) (s : Repo) :
    (init J s).repo.objects = s.objects ∧
    (∀ h : String, s.head = some h → (init J s).repo = s) ∧
    (s.head = none → (init J s).repo.head = some "") ∧
    (∀ i : String, s.index = some i → (init J s).repo.index = some i) ∧
    (s.head = none → s.index = none → (init J s).repo.index = some (J.stringify (.arr []))) ∧
    (init J s).error = none := by
  unfold init
  cases hh : s.head <;> cases hi : s.index <;> simp [hh, hi]

/-- C7 at concrete repositories: an initialised repository with a head and a
staged entry is left as it is, and the empty directory gets an empty HEAD
and the empty list as index. -/
theorem init_keeps_existing_witness :
    (init compactJSON ⟨[("ab", "x")], some "ab", some "[1]"⟩).repo =
      ⟨[("ab", "x")], some "ab", some "[1]"⟩ ∧
    (init compactJSON Repo.empty).repo = ⟨[], some "", some "[]"⟩ :=
  ⟨(init_keeps_existing compactJSON ⟨[("ab", "x")], some "ab", some "[1]"⟩).2.1 "ab" rfl,
    by decide⟩

/-- C7 as stated fails: in a directory where the index file exists and HEAD
does not, `init` creates HEAD, so the repository is not the same after
`init` as before, and `getCurrentHead` yields another value. -/
theorem init_changes_head_when_only_index_exists :
    (init compactJSON ⟨[], none, some "[]"⟩).repo ≠ ⟨[], none, some "[]"⟩ ∧
    getCurrentHead ⟨[], none, some "[]"⟩ = .null ∧
    getCurrentHead (init compactJSON ⟨[], none, some "[]"⟩).repo = .str "" := by
  refine ⟨by decide, rfl, rfl⟩

/-- C8, the code at a repository whose HEAD names a commit whose object file
is gone: `log` reports the failed read, prints the heading of the commit and
then throws a `TypeError`, the read of `timeStamp` on `null`. -/
theorem log_throws_on_missing_commit :
    log compactJSON ⟨[], some "3f786850e387550fdab836ed7e6dc881de23001b", some "[]"⟩ 9 =
      some ⟨[.failedToRead, .separator,
        .commitLine (some (.str "3f786850e387550fdab836ed7e6dc881de23001b"))],
        some .typeError⟩ := by
  rfl

/-- C9, as the code behaves: for a hash, a plain file name, under which no
object is stored, or whose object is not JSON text, `showCommitDiff` reports
the failed read, prints `Commit not found` and returns normally. The name is
required to be plain because only then is `path.join(objectsPath, name)` the
file of that name in `objects`, which is what `readObject` looks up. -/
theorem showCommitDiff_reports_not_found (J : JSON)
    (diffLines : String → String → List Change) (s : Repo) (commitHash : String)
    (_hname : PlainName commitHash)
    (h : s.readObject commitHash = none ∨
      ∃ text, s.readObject commitHash = some text ∧ J.parse text = none) :
    showCommitDiff J diffLines s commitHash = ⟨[.failedToRead, .commitNotFound], none⟩ := by
  rcases h with h | ⟨text, h1, h2⟩
  · simp [showCommitDiff, getCommitData, h, truthy]
  · simp [showCommitDiff, getCommitData, h1, h2, truthy]

/-- C9 at a concrete repository: the object under the hash is a blob that is
not JSON. -/
theorem showCommitDiff_reports_not_found_witness :
    showCommitDiff compactJSON sampleDiff ⟨[("ab", "hello")], some "", some "[]"⟩ "ab" =
      ⟨[.failedToRead, .commitNotFound], none⟩ :=
  showCommitDiff_reports_not_found compactJSON sampleDiff _ "ab" ⟨by decide, by decide⟩
    (Or.inr ⟨"hello", rfl, by rfl⟩)

/-- C9 as stated fails: for a hash that names no object `showCommitDiff`
returns normally, without an error. -/
theorem showCommitDiff_returns_normally :
    (showCommitDiff compactJSON sampleDiff ⟨[], some "", some "[]"⟩
      "3f786850e387550fdab836ed7e6dc881de23001b").error = none ∧
    PlainName "3f786850e387550fdab836ed7e6dc881de23001b" ∧
    (⟨[], some "", some "[]"⟩ : Repo).readObject
      "3f786850e387550fdab836ed7e6dc881de23001b" = none := by
  refine ⟨rfl, ⟨by decide, by decide⟩, rfl⟩

/-- C10: In every state reached from a freshly initialised repository by
`add` and `commit` commands (with a JSON codec that reads back what it writes
and without two stored contents under one hash), HEAD is empty or holds the
hash of a commit that was made; and under the hash of every commit made the
store holds a commit record, every file hash of which names a stored object
and whose parent is empty or the hash of a commit made, hence of a stored
record. -/
theorem no_dangling_references (J : JSON) (sha1 : String → Nat)
    (hJ : ∀ j, J.parse (J.stringify j) = some j) (ops : List Op)
    (hnc : NoCollision (run J sha1 (fresh J) ops).1.objects) :
    ((run J sha1 (fresh J) ops).1.head = some "" ∨
      ∃ h ∈ commitHashes (run J sha1 (fresh J) ops).2,
        (run J sha1 (fresh J) ops).1.head = some h) ∧
    ∀ h ∈ commitHashes (run J sha1 (fresh J) ops).2,
      ∃ (now m : String) (files : List (String × String)) (parent : String),
        (run J sha1 (fresh J) ops).1.readObject h =
          some (J.stringify (commitRecord now m (entries files) (.str parent))) ∧
        (∀ e ∈ files, ∃ content, (run J sha1 (fresh J) ops).1.readObject e.2 = some content) ∧
        (parent = "" ∨ parent ∈ commitHashes (run J sha1 (fresh J) ops).2) := by
  obtain ⟨made, staged, hinv, hh, -⟩ := run_inv J sha1 hJ ops (fresh J) [] [] (fresh_inv J)
  rw [List.append_nil] at hinv
  obtain ⟨hhead, -, -, hlinks⟩ := hinv
  have hmem : ∀ x, x ∈ made.map Prod.fst ↔ x ∈ commitHashes (run J sha1 (fresh J) ops).2 := by
    intro x; rw [hh, List.mem_reverse]
  constructor
  · cases made with
    | nil => exact Or.inl hhead
    | cons c rest => exact Or.inr ⟨c.1, (hmem _).mp (by simp), hhead⟩
  · intro h hmade
    obtain ⟨c, hc, rfl⟩ := List.mem_map.mp ((hmem h).mpr hmade)
    obtain ⟨files, parent, h1, h2, h3⟩ := Links_refs J _ hnc made hlinks c hc
    refine ⟨c.2.1, c.2.2, files, parent, h1, h2, ?_⟩
    rcases h3 with h3 | h3
    · exact Or.inl h3
    · exact Or.inr ((hmem _).mp h3)

/-- C10 at a concrete sequence, a commit of two files followed by a staged
file: the hypotheses hold for the compact codec and the sample digest. -/
theorem no_dangling_references_witness :
    NoCollision (run compactJSON sampleDigest (fresh compactJSON)
      [.add "a" (some "1"), .add "b" (some "2"), .commit "t" "m", .add "a" (some "3")]).1.objects ∧
    ((run compactJSON sampleDigest (fresh compactJSON)
        [.add "a" (some "1"), .add "b" (some "2"), .commit "t" "m", .add "a" (some "3")]).1.head =
        some "" ∨
      ∃ h ∈ commitHashes (run compactJSON sampleDigest (fresh compactJSON)
          [.add "a" (some "1"), .add "b" (some "2"), .commit "t" "m", .add "a" (some "3")]).2,
        (run compactJSON sampleDigest (fresh compactJSON)
          [.add "a" (some "1"), .add "b" (some "2"), .commit "t" "m",
            .add "a" (some "3")]).1.head = some h) :=
  ⟨by unfold NoCollision; decide,
    (no_dangling_references compactJSON sampleDigest compactJSON_parse_stringify
      [.add "a" (some "1"), .add "b" (some "2"), .commit "t" "m", .add "a" (some "3")]
      (by unfold NoCollision; decide)).1⟩

end Tweak
